import Mathlib

/-!
# Verification of the Vampire saturation core against its specification

This file gives a shallow embedding of parts of the Vampire theorem prover
(term/literal data model, the splitter with BDD-guarded propositional parts,
the answer-literal manager, the SAT clause-sharing hasher and the statistics
record) and proves or refutes the frozen specification claims about them.

Conventions of the embedding:
* machine `unsigned` values become `Nat`;
* C++ `bool` becomes `Bool`;
* fallible array indexing becomes `Except Unit`;
* heap-allocated, pointer-identified objects (clauses) become entries of an
  association list keyed by allocation order, so pointer identity becomes
  identity of the numeric key;
* singleton mutable state (the BDD variable counter, the splitter's maps,
  the inference store) is threaded explicitly through the functions.
-/

namespace Vampire

/-! ## Terms and literals (from `Kernel/Term.hpp`) -/

/-- First-order terms: ordinary variables and compound terms
(function symbol applied to arguments), from `Kernel/Term.hpp`. -/
inductive Trm where
  | var (n : Nat)
  | app (f : Nat) (args : List Trm)

mutual

/-- Boolean structural equality on terms. -/
def Trm.beq : Trm → Trm → Bool
  | .var n, .var m => n == m
  | .app f as, .app g bs => f == g && Trm.beqList as bs
  | _, _ => false

/-- Boolean structural equality on argument lists. -/
def Trm.beqList : List Trm → List Trm → Bool
  | [], [] => true
  | a :: as, b :: bs => Trm.beq a b && Trm.beqList as bs
  | _, _ => false

end

mutual

theorem Trm.eq_of_beq : ∀ {a b : Trm}, Trm.beq a b = true → a = b
  | .var _, .var _, h => by
      simp only [Trm.beq, beq_iff_eq] at h; rw [h]
  | .app f as, .app g bs, h => by
      simp only [Trm.beq, Bool.and_eq_true, beq_iff_eq] at h
      rw [h.1, Trm.eqList_of_beqList h.2]
  | .var _, .app _ _, h => by simp [Trm.beq] at h
  | .app _ _, .var _, h => by simp [Trm.beq] at h

theorem Trm.eqList_of_beqList :
    ∀ {as bs : List Trm}, Trm.beqList as bs = true → as = bs
  | [], [], _ => rfl
  | a :: as, b :: bs, h => by
      simp only [Trm.beqList, Bool.and_eq_true] at h
      rw [Trm.eq_of_beq h.1, Trm.eqList_of_beqList h.2]
  | [], _ :: _, h => by simp [Trm.beqList] at h
  | _ :: _, [], h => by simp [Trm.beqList] at h

end

mutual

theorem Trm.beq_refl : ∀ a : Trm, Trm.beq a a = true
  | .var _ => by simp [Trm.beq]
  | .app f as => by simp [Trm.beq, Trm.beqList_refl as]

theorem Trm.beqList_refl : ∀ as : List Trm, Trm.beqList as as = true
  | [] => rfl
  | a :: as => by simp [Trm.beqList, Trm.beq_refl a, Trm.beqList_refl as]

end

instance : DecidableEq Trm := fun a b =>
  if h : Trm.beq a b then
    .isTrue (Trm.eq_of_beq h)
  else
    .isFalse (fun he => h (he ▸ Trm.beq_refl a))

/-- A literal: a predicate number (`functor`; 0 is reserved for equality),
a polarity bit and an argument list, from class `Literal` in
`Kernel/Term.hpp`. -/
structure Literal where
  functor : Nat
  polarity : Bool
  args : List Trm
deriving DecidableEq

namespace Literal

/-- `Literal::arity`: number of arguments. -/
def arity (l : Literal) : Nat := l.args.length

/-- `Literal::isEquality`: the equality predicate has functor 0. -/
def isEquality (l : Literal) : Bool := l.functor == 0

/-- `Literal::isPositive`. -/
def isPositive (l : Literal) : Bool := l.polarity

/-- `Literal::isNegative`. -/
def isNegative (l : Literal) : Bool := !l.polarity

/-- `Literal::polarity()`: 1 if positive, 0 if negative. -/
def polarityN (l : Literal) : Nat := if l.polarity then 1 else 0

/-- `Literal::header()`: `2*_functor + polarity()`. -/
def header (l : Literal) : Nat := 2 * l.functor + l.polarityN

/-- `Literal::complementaryHeader()`: `2*_functor + 1 - polarity()`. -/
def complementaryHeader (l : Literal) : Nat := 2 * l.functor + 1 - l.polarityN

/-- `Literal::headerToPredicateNumber`: `header/2`. -/
def headerToPredicateNumber (h : Nat) : Nat := h / 2

/-- `Literal::headerToPolarity`: `header % 2`. -/
def headerToPolarity (h : Nat) : Nat := h % 2

/-- The literal with the same predicate and arguments and the opposite
polarity (the effect of `Literal::negate`). -/
def negated (l : Literal) : Literal := { l with polarity := !l.polarity }

end Literal

/-! ## Statistics (from `Statistics.hpp`) -/

/-- `Statistics::TerminationReason`: the termination reason enumeration,
with exactly the six enumerators of the C++ `enum`. -/
inductive TerminationReason where
  | REFUTATION
  | SATISFIABLE
  | REFUTATION_NOT_FOUND
  | UNKNOWN
  | TIME_LIMIT
  | MEMORY_LIMIT
deriving DecidableEq, Repr

/-- The part of the `Statistics` record that claims are about: the
termination reason and the pointer to the refutation unit (a nullable
`Kernel::Unit*`, embedded as `Option Nat` over unit identities). -/
structure Statistics where
  terminationReason : TerminationReason
  refutation : Option Nat
deriving DecidableEq, Repr

/-! ## SAT clause sharing (from `SAT/ClauseSharing.cpp`) -/

/-- A SAT clause, embedded as its list of literals (a `SATLiteral` is an
encoded machine word; we keep it as `Nat`). -/
def SATClause := List Nat

/-- Total embedding of `(*c)[i]`: indexing a SAT clause; out-of-range
access takes the error branch. -/
def satNth (c : List Nat) (i : Nat) : Except Unit Nat :=
  if h : i < c.length then .ok (c.get ⟨i, h⟩) else .error ()

/-- The loop of `ClauseSharing::Hasher::equals`:
`for(int i=c1->length();i>=0;i--) if((*c1)[i]!=(*c2)[i]) return false;`
descending from the given index to `0` inclusive. -/
def hasherEqualsFrom (c1 c2 : List Nat) : Nat → Except Unit Bool
  | 0 =>
    match satNth c1 0, satNth c2 0 with
    | .error e, _ => .error e
    | .ok _, .error e => .error e
    | .ok l1, .ok l2 => if l1 ≠ l2 then .ok false else .ok true
  | i + 1 =>
    match satNth c1 (i + 1), satNth c2 (i + 1) with
    | .error e, _ => .error e
    | .ok _, .error e => .error e
    | .ok l1, .ok l2 =>
      if l1 ≠ l2 then .ok false else hasherEqualsFrom c1 c2 i

/-- `ClauseSharing::Hasher::equals`: length check, then the descending
comparison loop starting at index `c1->length()`. -/
def hasherEquals (c1 c2 : List Nat) : Except Unit Bool :=
  if c1.length ≠ c2.length then .ok false
  else hasherEqualsFrom c1 c2 c1.length

/-! ## BDD (propositional parts) -/

/-- Modelled from the spec: `Kernel/BDD.hpp` is not under `src/`. A reduced
ordered BDD node is the constant ⊤, the constant ⊥, or a triple
`(var, low, high)`; nodes are hash-consed, so structural equality is
identity (spec §3 "BDD", §4.E). -/
inductive BDDNode where
  | tru
  | fls
  | node (v : Nat) (lo hi : BDDNode)
deriving DecidableEq

namespace BDD

/-- The size of a BDD node (bounds the apply recursions below). -/
def size : BDDNode → Nat
  | .tru => 1
  | .fls => 1
  | .node _ lo hi => size lo + size hi + 1

/-- Modelled from the spec: reduced-node constructor — a node with equal
children collapses to the child (reduced ordered BDD, spec §4.E). -/
def mkNode (v : Nat) (lo hi : BDDNode) : BDDNode :=
  if lo = hi then lo else .node v lo hi

/-- Modelled from the spec: `BDD::getAtomic(var, polarity)` — the BDD of a
single split-name variable or its negation (spec §4.E `atomic`). -/
def getAtomic (v : Nat) (pol : Bool) : BDDNode :=
  if pol then .node v .fls .tru else .node v .tru .fls

/-- Modelled from the spec: `BDD::getTrue()`. -/
def getTrue : BDDNode := .tru

/-- Modelled from the spec: `BDD::getFalse()`. -/
def getFalse : BDDNode := .fls

/-- Modelled from the spec: `BDD::isTrue(n)` — the node is the ⊤ constant. -/
def isTrue (n : BDDNode) : Bool := n == .tru

/-- Modelled from the spec: `BDD::isFalse(n)` — the node is the ⊥ constant. -/
def isFalse (n : BDDNode) : Bool := n == .fls

/-- Modelled from the spec: `BDD::disjunction` — the canonical apply
recursion over two reduced ordered BDDs, ordered by variable id.  The
recursion is bounded by an explicit fuel; every recursive call strictly
decreases `size a + size b`, so with that initial fuel (supplied by
`disjunction` below) the out-of-fuel arm is unreachable. -/
def disjunctionF : Nat → BDDNode → BDDNode → BDDNode
  | _, .tru, _ => .tru
  | _, .fls, b => b
  | _, .node _ _ _, .tru => .tru
  | _, .node va la ha, .fls => .node va la ha
  | 0, .node _ _ _, .node _ _ _ => .tru
  | fuel + 1, .node va la ha, .node vb lb hb =>
    if va = vb then
      mkNode va (disjunctionF fuel la lb) (disjunctionF fuel ha hb)
    else if va < vb then
      mkNode va (disjunctionF fuel la (.node vb lb hb))
        (disjunctionF fuel ha (.node vb lb hb))
    else
      mkNode vb (disjunctionF fuel (.node va la ha) lb)
        (disjunctionF fuel (.node va la ha) hb)

/-- Modelled from the spec: `BDD::disjunction` with the fuel filled in. -/
def disjunction (a b : BDDNode) : BDDNode :=
  disjunctionF (size a + size b) a b

/-- Modelled from the spec: `BDD::conjunction` — dual of `disjunction`,
with the same fuel bound. -/
def conjunctionF : Nat → BDDNode → BDDNode → BDDNode
  | _, .fls, _ => .fls
  | _, .tru, b => b
  | _, .node _ _ _, .fls => .fls
  | _, .node va la ha, .tru => .node va la ha
  | 0, .node _ _ _, .node _ _ _ => .fls
  | fuel + 1, .node va la ha, .node vb lb hb =>
    if va = vb then
      mkNode va (conjunctionF fuel la lb) (conjunctionF fuel ha hb)
    else if va < vb then
      mkNode va (conjunctionF fuel la (.node vb lb hb))
        (conjunctionF fuel ha (.node vb lb hb))
    else
      mkNode vb (conjunctionF fuel (.node va la ha) lb)
        (conjunctionF fuel (.node va la ha) hb)

/-- Modelled from the spec: `BDD::conjunction` with the fuel filled in. -/
def conjunction (a b : BDDNode) : BDDNode :=
  conjunctionF (size a + size b) a b

end BDD

/-! ## Unit input types and the signature -/

/-- `Unit::InputType` (spec §3 "Clause"): axiom, assumption, hypothesis,
conjecture, negated conjecture.  `axm` stands for the C++ `AXIOM`
enumerator. -/
inductive InputType where
  | axm
  | assumption
  | hypothesis
  | conjecture
  | negatedConjecture
deriving DecidableEq

/-- Modelled from the spec: `Kernel/Signature.hpp` is not under `src/`.
Per-predicate symbol data used by the answer-literal manager: the arity
and the answer-predicate marker (`Signature::Symbol::answerPredicate`). -/
structure PredSym where
  arity : Nat
  answerPredicate : Bool
deriving DecidableEq

/-- Modelled from the spec: the predicate part of the signature, a growing
array of predicate symbols; the predicate number is the index. -/
structure ASig where
  preds : List PredSym
deriving DecidableEq

namespace ASig

/-- `env.signature->getPredicate(p)` (total embedding: out-of-range yields
a dummy non-answer symbol). -/
def getPred (sig : ASig) (p : Nat) : PredSym := sig.preds.getD p ⟨0, false⟩

/-- Modelled from the spec: `Signature::addNamePredicate(arity, "ans")`
allocates a fresh predicate number of the given arity. -/
def addNamePredicate (sig : ASig) (arity : Nat) : Nat × ASig :=
  (sig.preds.length, ⟨sig.preds ++ [⟨arity, false⟩]⟩)

/-- `Signature::Symbol::markAnswerPredicate`, setting the flag of one
predicate. -/
def markAnswerPredicate (sig : ASig) (p : Nat) : ASig :=
  ⟨sig.preds.set p ⟨(sig.getPred p).arity, true⟩⟩

end ASig

/-! ## Answer-literal manager (from `Shell/AnswerExtractor.cpp`) -/

/-- The inference rule tag of a clause, as needed by the answer-literal
manager (`Kernel/Inference.hpp` is not under `src/`; the tags are those
used in `Shell/AnswerExtractor.cpp`). -/
inductive ARule where
  | inputR
  | answerLiteral
  | unitResultingResolution
deriving DecidableEq

/-- A saturation clause as seen by `AnswerLiteralManager`: literals, input
type, propositional part, splits, and its inference tag.  `noProp`
(empty propositional part) and `noSplits` are modelled from the spec
(§3 "Clause"): the propositional part is ⊥ for an unconditional clause and
`splits` is the set of split levels. -/
structure AClause where
  lits : List Literal
  inputType : InputType
  prop : BDDNode
  splits : List Nat
  rule : ARule
deriving DecidableEq

namespace AClause

/-- `Clause::noProp()`: the propositional part is the ⊥ constant
(modelled from the spec: ⊥ means unconditional). -/
def noProp (c : AClause) : Bool := BDD.isFalse c.prop

/-- `Clause::noSplits()`: the clause depends on no splits. -/
def noSplits (c : AClause) : Bool := c.splits.isEmpty

end AClause

/-- The synthetic refutation built by
`AnswerLiteralManager::getRefutation`: an empty clause whose inference
carries a rule tag and the premise list. -/
structure ARefutation where
  lits : List Literal
  inputType : InputType
  rule : ARule
  premises : List AClause
deriving DecidableEq

/-- The mutable state of the `AnswerLiteralManager` singleton: the
`_answers` stack (top first) and the `_resolverClauses` cache. -/
structure AnsState where
  answers : List AClause
  resolverClauses : List (Nat × AClause)
deriving DecidableEq

/-- `AnswerLiteralManager::isAnswerLiteral`: the literal's predicate is
marked as an answer predicate. -/
def isAnswerLiteral (sig : ASig) (lit : Literal) : Bool :=
  (sig.getPred lit.functor).answerPredicate

/-- The resolver clause `{ans(X0,…,X(n-1))}` that
`AnswerLiteralManager::getResolverClause` builds for predicate `pred`:
a positive literal applied to the first `arity` variables, an AXIOM unit
with an `ANSWER_LITERAL` inference. -/
def resolverFor (sig : ASig) (pred : Nat) : AClause :=
  { lits := [⟨pred, true, (List.range (sig.getPred pred).arity).map Trm.var⟩]
    inputType := .axm
    prop := BDD.getFalse
    splits := []
    rule := .answerLiteral }

/-- `AnswerLiteralManager::getResolverClause`: return the cached resolver
clause for `pred`, building and caching it on first use. -/
def getResolverClause (sig : ASig) (st : AnsState) (pred : Nat) :
    AClause × AnsState :=
  match st.resolverClauses.lookup pred with
  | some res => (res, st)
  | none =>
    let res := resolverFor sig pred
    (res, { st with resolverClauses := (pred, res) :: st.resolverClauses })

/-- One iteration of the premise-building loop of
`AnswerLiteralManager::getRefutation`: look up the literal's resolver
clause and push it in front of the premise list (`UnitList::push`
prepends). -/
def pushResolverPremise (sig : ASig) (acc : List AClause × AnsState)
    (lit : Literal) : List AClause × AnsState :=
  let (res, st2) := getResolverClause sig acc.2 lit.functor
  (res :: acc.1, st2)

/-- `AnswerLiteralManager::getRefutation`: the premise list starts as
`[answer]` and each literal's resolver clause is pushed in front
(`UnitList::push` prepends); the result is an empty clause with a
`UNIT_RESULTING_RESOLUTION` inference over those premises and the answer
clause's input type. -/
def getRefutation (sig : ASig) (st : AnsState) (answer : AClause) :
    ARefutation × AnsState :=
  let folded := answer.lits.foldl (pushResolverPremise sig) ([answer], st)
  ({ lits := [], inputType := answer.inputType,
     rule := .unitResultingResolution, premises := folded.1 }, folded.2)

/-- `AnswerLiteralManager::onNewClause`: if the clause has an empty
propositional part, no splits and every literal is an answer literal, the
clause is pushed on the `_answers` stack and a synthetic refutation is
thrown (`some refutation` embeds the thrown
`MainLoop::RefutationFoundException`); otherwise the function returns
normally (`none`). -/
def onNewClause (sig : ASig) (st : AnsState) (cl : AClause) :
    AnsState × Option ARefutation :=
  if !(cl.noProp && cl.noSplits) then (st, none)
  else if !(cl.lits.all (fun l => isAnswerLiteral sig l)) then (st, none)
  else
    let st1 := { st with answers := cl :: st.answers }
    let r := getRefutation sig st1 cl
    (r.2, some r.1)

/-- The resolver-cache invariant: every cached resolver clause is the one
`getResolverClause` would build for its predicate. -/
def ResolverInv (sig : ASig) (st : AnsState) : Prop :=
  ∀ p c, (p, c) ∈ st.resolverClauses → c = resolverFor sig p

/-! ## Formulas and units (answer-literal injection) -/

/-- First-order formulas as used by `AnswerLiteralManager`
(`Kernel/Formula.hpp` connectives `LITERAL`, `AND`, `OR`, `NOT`,
`FORALL`, `EXISTS`; junctions carry argument lists, quantifiers carry
variable lists). -/
inductive Formula where
  | literal (l : Literal)
  | conj (args : List Formula)
  | disj (args : List Formula)
  | neg (f : Formula)
  | fAll (vars : List Nat) (f : Formula)
  | fExists (vars : List Nat) (f : Formula)

mutual

/-- Modelled from the spec: `Shell/Flattening.hpp` is not under `src/`.
`Flattening::flatten` merges directly nested junctions of the same
connective and directly nested quantifiers of the same kind. -/
def Formula.flatten : Formula → Formula
  | .literal l => .literal l
  | .neg f => .neg f.flatten
  | .conj args => .conj (Formula.flattenConjList args)
  | .disj args => .disj (Formula.flattenDisjList args)
  | .fAll vs f =>
    match f.flatten with
    | .fAll vs2 g => .fAll (vs ++ vs2) g
    | g => .fAll vs g
  | .fExists vs f =>
    match f.flatten with
    | .fExists vs2 g => .fExists (vs ++ vs2) g
    | g => .fExists vs g

/-- Modelled from the spec: flattening of a conjunction's argument list,
splicing in the arguments of directly nested conjunctions. -/
def Formula.flattenConjList : List Formula → List Formula
  | [] => []
  | f :: fs =>
    match f.flatten with
    | .conj inner => inner ++ Formula.flattenConjList fs
    | g => g :: Formula.flattenConjList fs

/-- Modelled from the spec: flattening of a disjunction's argument list,
splicing in the arguments of directly nested disjunctions. -/
def Formula.flattenDisjList : List Formula → List Formula
  | [] => []
  | f :: fs =>
    match f.flatten with
    | .disj inner => inner ++ Formula.flattenDisjList fs
    | g => g :: Formula.flattenDisjList fs

end

mutual

/-- A `Kernel::Unit`: either a clause or a formula unit, with its input
type and (for formula units) the inference that produced it. -/
inductive AUnit where
  | clauseU (lits : List Literal) (t : InputType)
  | formulaU (f : Formula) (t : InputType) (inf : UInference)

/-- The inference of a formula unit, as far as
`AnswerLiteralManager::tryAddingAnswerLiteral` is concerned: either the
inference the input unit arrived with, or `Inference1(ANSWER_LITERAL,
parent)`. -/
inductive UInference where
  | initial
  | answerLiteral (parent : AUnit)

end

/-- `Unit::inputType()`. -/
def AUnit.inputType : AUnit → InputType
  | .clauseU _ t => t
  | .formulaU _ t _ => t

/-- `Unit::isClause()`. -/
def AUnit.isClause : AUnit → Bool
  | .clauseU _ _ => true
  | .formulaU _ _ _ => false

/-- `AnswerLiteralManager::getAnswerLiteral`: build the positive literal
`ans(x1,…,xn)` over the quantified variables, allocating a fresh predicate
of arity n and marking it as an answer predicate. -/
def getAnswerLiteral (sig : ASig) (vars : List Nat) : Literal × ASig :=
  let litArgs := vars.map Trm.var
  let vcnt := litArgs.length
  let pr := sig.addNamePredicate vcnt
  let sig2 := pr.2.markAnswerPredicate pr.1
  (⟨pr.1, true, litArgs⟩, sig2)

/-- The shape test of `AnswerLiteralManager::tryAddingAnswerLiteral`:
a non-clause unit of input type `CONJECTURE` whose formula is
`NOT(EXISTS …)`. -/
def isNegExistsConjecture : AUnit → Bool
  | .formulaU (.neg (.fExists _ _)) t _ => t == .conjecture
  | _ => false

/-- `AnswerLiteralManager::tryAddingAnswerLiteral`: clause units and units
whose input type is not `CONJECTURE` are returned unchanged, as are formula
units not of the shape `NOT(EXISTS …)`; a conjecture `¬∃x̄. φ` is replaced
by a new formula unit `flatten(¬∃x̄. AND[ans(x̄), φ])` (the `FormulaList`
is built by pushing `φ` and then the answer literal in front) with an
`ANSWER_LITERAL` inference from the original unit. -/
def tryAddingAnswerLiteral (sig : ASig) (u : AUnit) : ASig × AUnit :=
  match u with
  | .clauseU _ _ => (sig, u)
  | .formulaU form t _ =>
    if t ≠ .conjecture then (sig, u)
    else
      match form with
      | .neg (.fExists vars phi) =>
        let r := getAnswerLiteral sig vars
        let conjArgs := [Formula.literal r.1, phi]
        let newForm := (Formula.neg (.fExists vars (.conj conjArgs))).flatten
        (r.2, .formulaU newForm t (.answerLiteral u))
      | _ => (sig, u)

/-! ## Multi-bank substitution and the conjunctive goal extractor -/

/-- Modelled from the spec (§4.B): `Kernel/RobSubstitution.hpp` is not
under `src/`. The substitution maps `(var, bank)` to `(term, bank)`;
bindings are kept triangular (bound terms may contain bound variables). -/
abbrev VSubst := List ((Nat × Nat) × (Trm × Nat))

mutual

/-- Symbol count of a term (used to bound the unification recursion). -/
def Trm.size : Trm → Nat
  | .var _ => 1
  | .app _ args => 1 + Trm.sizeList args

/-- Symbol count of a term list. -/
def Trm.sizeList : List Trm → Nat
  | [] => 0
  | t :: ts => Trm.size t + Trm.sizeList ts

end

/-- Modelled from the spec: dereference a variable through the
substitution (fuel bounds the walk; exhaustion stops the walk). -/
def derefVar (s : VSubst) : Nat → Trm × Nat → Trm × Nat
  | fuel + 1, (.var n, b) =>
    match s.lookup (n, b) with
    | some tb => derefVar s fuel tb
    | none => (.var n, b)
  | _, tb => tb

/-- Modelled from the spec: the occurs check of Robinson unification
(fuel-bounded; exhaustion conservatively reports an occurrence). -/
def occursIn (s : VSubst) : Nat → Nat × Nat → Trm × Nat → Bool
  | 0, _, _ => true
  | fuel + 1, v, tb =>
    match derefVar s (fuel + 1) tb with
    | (.var n, b) => (n, b) == v
    | (.app _ args, b) => args.any (fun a => occursIn s fuel v (a, b))

mutual

/-- Modelled from the spec (§4.B): fuel-bounded Robinson unification with
occurs check over banked terms; on failure the substitution is left
unchanged (the caller keeps the old value). -/
def unifyF : Nat → VSubst → Trm × Nat → Trm × Nat → Option VSubst
  | 0, _, _, _ => none
  | fuel + 1, s, t1, t2 =>
    match derefVar s (fuel + 1) t1, derefVar s (fuel + 1) t2 with
    | (.var n, b), (.var m, c) =>
      if (n, b) = (m, c) then some s
      else some (((n, b), (.var m, c)) :: s)
    | (.var n, b), t =>
      if occursIn s fuel (n, b) t then none else some (((n, b), t) :: s)
    | t, (.var m, c) =>
      if occursIn s fuel (m, c) t then none else some (((m, c), t) :: s)
    | (.app f as, b), (.app g bs, c) =>
      if f = g ∧ as.length = bs.length then unifyListF fuel s as b bs c
      else none

/-- Modelled from the spec: pairwise unification of two argument lists. -/
def unifyListF : Nat → VSubst → List Trm → Nat → List Trm → Nat →
    Option VSubst
  | 0, _, _, _, _, _ => none
  | _ + 1, s, [], _, [], _ => some s
  | fuel + 1, s, a :: as, b1, c :: cs, b2 =>
    match unifyF fuel s (a, b1) (c, b2) with
    | some s2 => unifyListF fuel s2 as b1 cs b2
    | none => none
  | _ + 1, _, _, _, _, _ => none

end

/-- A generous fuel for one unification problem. -/
def unifFuel (s : VSubst) (t1 t2 : Trm) : Nat :=
  4 * (Trm.size t1 + Trm.size t2 +
    s.foldl (fun acc p => acc + Trm.size p.2.1) 0 + s.length + 4)

/-- Modelled from the spec: `RobSubstitution::unify(t1,b1,t2,b2)`. -/
def vunify (s : VSubst) (t1 : Trm) (b1 : Nat) (t2 : Trm) (b2 : Nat) :
    Option VSubst :=
  unifyF (unifFuel s t1 t2) s (t1, b1) (t2, b2)

/-- Modelled from the spec: `RobSubstitution::unifyArgs(l1,b1,l2,b2)` —
unify the argument lists of two literals with matching header. -/
def vunifyArgs (s : VSubst) (l1 : Literal) (b1 : Nat) (l2 : Literal)
    (b2 : Nat) : Option VSubst :=
  unifyListF
    (4 * (Trm.sizeList l1.args + Trm.sizeList l2.args +
      s.foldl (fun acc p => acc + Trm.size p.2.1) 0 + s.length + 4))
    s l1.args b1 l2.args b2

/-- Modelled from the spec (§4.C): the lemma index's
`getUnifications(query, complementary=false, …)` retrieval, restricted to
literals with the query's header (the code asserts
`goalLit->header() == qres.literal->header()` on every result). -/
def getUnifications (lemmas : List Literal) (query : Literal) :
    List Literal :=
  lemmas.filter (fun l => l.header == query.header)

/-- The state of `ConjunctionGoalAnswerExractor::SubstBuilder`: the goal
literals, the per-depth remaining unification iterators, the per-depth
`_triedEqUnif` flags, the per-depth backtrack checkpoints (`_btData`,
modelled as substitution snapshots per the spec's trail semantics), the
current substitution, and the current depth. -/
structure SBState where
  goalLits : List Literal
  unifIts : List (List Literal)
  triedEqUnif : List Bool
  btData : List VSubst
  subst : VSubst
  depth : Nat
deriving DecidableEq

/-- The goal literal of the current depth (`_goalLits[_depth]`). -/
def currentGoal (st : SBState) : Literal :=
  st.goalLits.getD st.depth ⟨0, true, []⟩

/-- The fallback two-sided unification attempt of `nextGoalUnif`:
`_subst.unify(*goalLit->nthArgument(0), 0, *goalLit->nthArgument(1), 0)` —
both argument terms of the goal literal, in variable bank 0. -/
def eqFallback (st : SBState) : Option VSubst :=
  vunify st.subst ((currentGoal st).args.getD 0 (.var 0)) 0
    ((currentGoal st).args.getD 1 (.var 0)) 0

/-- The iterator-draining loop at the head of
`SubstBuilder::nextGoalUnif`: try `unifyArgs(goalLit, 0, qres.literal, 1)`
on each remaining result; return the successful substitution and the
unconsumed rest, or failure once the iterator is exhausted. -/
def goalUnifLoop (goalLit : Literal) (subst : VSubst) :
    List Literal → Option VSubst × List Literal
  | [] => (none, [])
  | q :: rest =>
    match vunifyArgs subst goalLit 0 q 1 with
    | some s2 => (some s2, rest)
    | none => goalUnifLoop goalLit subst rest

/-- `SubstBuilder::nextGoalUnif`: drain the unification iterator of the
current goal; once it is exhausted, iff the goal literal is a positive
equality and the fallback was not yet tried at this depth, mark it tried
and attempt `unify(arg0, 0, arg1, 0)`; report success or failure. -/
def nextGoalUnif (st : SBState) : Bool × SBState :=
  match goalUnifLoop (currentGoal st) st.subst (st.unifIts.getD st.depth [])
    with
  | (some s2, rest) =>
    (true, { st with subst := s2, unifIts := st.unifIts.set st.depth rest })
  | (none, _) =>
    let st1 := { st with unifIts := st.unifIts.set st.depth [] }
    if !(st.triedEqUnif.getD st.depth false) &&
        (currentGoal st).isEquality && (currentGoal st).isPositive then
      let st2 := { st1 with triedEqUnif := st1.triedEqUnif.set st.depth true }
      match eqFallback st with
      | some s2 => (true, { st2 with subst := s2 })
      | none => (false, st2)
    else (false, st1)

/-- `SubstBuilder::enterGoal`: load the unification iterator for the
current goal, clear its `_triedEqUnif` flag, and start a backtrack
recording (checkpoint the substitution). -/
def enterGoal (lemmas : List Literal) (st : SBState) : SBState :=
  { st with
    unifIts := st.unifIts.set st.depth
      (getUnifications lemmas (st.goalLits.getD st.depth ⟨0, true, []⟩))
    triedEqUnif := st.triedEqUnif.set st.depth false
    btData := st.btData.set st.depth st.subst }

/-- `SubstBuilder::leaveGoal`: end the recording and backtrack the
substitution to the checkpoint of the current depth. -/
def leaveGoal (st : SBState) : SBState :=
  { st with subst := st.btData.getD st.depth [] }

/-- The outcome of one iteration of the `for(;;)` loop in
`SubstBuilder::run`. -/
inductive StepRes where
  | proceed (st : SBState)
  | success (st : SBState)
  | failure (st : SBState)
deriving DecidableEq

/-- One iteration of the `for(;;)` loop of `SubstBuilder::run`: on a
successful `nextGoalUnif` descend (or finish once all goals are covered);
on failure leave the goal (backtracking the substitution) and either give
up at depth 0 or continue one level up. -/
def runStep (lemmas : List Literal) (st : SBState) : StepRes :=
  match nextGoalUnif st with
  | (true, st1) =>
    let st2 := { st1 with depth := st1.depth + 1 }
    if st2.depth = st2.goalLits.length then .success st2
    else .proceed (enterGoal lemmas st2)
  | (false, st1) =>
    let st2 := leaveGoal st1
    if st2.depth = 0 then .failure st2
    else .proceed { st2 with depth := st2.depth - 1 }

/-! ## The splitter (from `Splitter.cpp`) -/

/-- Inference rule tags used by the splitter (`Kernel/Inference.hpp` is
not under `src/`; these are the tags `Splitter.cpp` uses). -/
inductive SpRule where
  | tautologyIntroduction
  | clauseNaming
  | splitting
deriving DecidableEq

/-- The inference of a splitter clause: the one the input clause arrived
with, a premise-less inference of a rule, or `Inference2(SPLITTING, cl,
premise)` with two parent clause identities. -/
inductive SpInference where
  | given
  | inference0 (r : SpRule)
  | inference2 (r : SpRule) (parent1 parent2 : Nat)
deriving DecidableEq

/-- A clause as the splitter sees it: literals, input type, propositional
part (a BDD node; modelled from the spec §3 "Clause") and its inference. -/
structure SplClause where
  lits : List Literal
  inputType : InputType
  prop : BDDNode
  inf : SpInference
deriving DecidableEq

/-- Events of the inference store recorded by the splitter
(`recordNonPropInference`, `recordPropAlter`, `recordSplitting`,
`recordMerge` of `Kernel/InferenceStore.hpp`, not under `src/`, modelled
from the spec §4.D side tables). -/
inductive StoreEvent where
  | nonPropInference (cl : Nat)
  | propAlter (cl : Nat) (oldP newP : BDDNode) (r : SpRule)
  | splitting (cl : Nat) (oldP newP : BDDNode) (premises : List Nat)
  | merge (cl : Nat) (oldP : BDDNode) (other : Nat) (newP : BDDNode)
deriving DecidableEq

/-- The statistics counters the splitter updates. -/
structure SpStats where
  splittedClauses : Nat
  splittedComponents : Nat
  uniqueComponents : Nat
deriving DecidableEq

/-- The splitter's state: the clause heap (pointer identity = allocation
number), the BDD variable counter, the variant index (as the set of
inserted clause ids), `_clauseNames`, `_propPredNames`,
`_propPred{Pos,Neg}NamePremises`, the recorded inference-store events
(newest first) and the statistics. -/
structure SpState where
  heap : List (Nat × SplClause)
  nextCl : Nat
  bddNextVar : Nat
  variantIndex : List Nat
  clauseNames : List (Nat × Nat)
  propPredNames : List (Nat × Nat)
  propPredPosNamePremises : List (Nat × Nat)
  propPredNegNamePremises : List (Nat × Nat)
  store : List StoreEvent
  stats : SpStats
deriving DecidableEq

namespace SpState

/-- Dereference a clause pointer (total embedding: a dangling id yields a
dummy clause). -/
def cl (s : SpState) (i : Nat) : SplClause :=
  (s.heap.lookup i).getD ⟨[], .axm, .fls, .given⟩

/-- Allocate a new clause, returning its identity. -/
def alloc (s : SpState) (c : SplClause) : Nat × SpState :=
  (s.nextCl, { s with heap := (s.nextCl, c) :: s.heap, nextCl := s.nextCl + 1 })

/-- `Clause::setProp`. -/
def setProp (s : SpState) (i : Nat) (p : BDDNode) : SpState :=
  let h := s.heap.map
    (fun e => if e.1 = i then (e.1, { e.2 with prop := p }) else e)
  { s with heap := h }

/-- Record an inference-store event. -/
def record (s : SpState) (e : StoreEvent) : SpState :=
  { s with store := e :: s.store }

/-- Cache a positive naming premise. -/
def pushPosPremise (s : SpState) (pred cid : Nat) : SpState :=
  { s with propPredPosNamePremises :=
      (pred, cid) :: s.propPredPosNamePremises }

/-- Cache a negative naming premise. -/
def pushNegPremise (s : SpState) (pred cid : Nat) : SpState :=
  { s with propPredNegNamePremises :=
      (pred, cid) :: s.propPredNegNamePremises }

end SpState

/-! ### Variant retrieval (modelled from the spec) -/

/-- Modelled from the spec: extend a variable renaming by one pair,
keeping it a function and injective. -/
def addVarPair (m : List (Nat × Nat)) (x y : Nat) :
    Option (List (Nat × Nat)) :=
  match m.lookup x with
  | some y2 => if y2 = y then some m else none
  | none => if m.any (fun p => p.2 = y) then none else some ((x, y) :: m)

mutual

/-- Modelled from the spec: match two terms under an injective variable
renaming, extending the renaming. -/
def matchTrm : List (Nat × Nat) → Trm → Trm → Option (List (Nat × Nat))
  | m, .var x, .var y => addVarPair m x y
  | m, .app f as, .app g bs =>
    if f = g then matchTrms m as bs else none
  | _, _, _ => none

/-- Modelled from the spec: match two term lists pointwise under an
injective variable renaming. -/
def matchTrms :
    List (Nat × Nat) → List Trm → List Trm → Option (List (Nat × Nat))
  | m, [], [] => some m
  | m, a :: as, b :: bs =>
    match matchTrm m a b with
    | some m2 => matchTrms m2 as bs
    | none => none
  | _, _, _ => none

end

/-- Modelled from the spec: match two literal lists pointwise under one
injective variable renaming. -/
def matchLits :
    List (Nat × Nat) → List Literal → List Literal →
      Option (List (Nat × Nat))
  | m, [], [] => some m
  | m, l1 :: ls1, l2 :: ls2 =>
    if l1.functor = l2.functor ∧ l1.polarity = l2.polarity then
      match matchTrms m l1.args l2.args with
      | some m2 => matchLits m2 ls1 ls2
      | none => none
    else none
  | _, _, _ => none

/-- All ways of inserting an element into a list. -/
def insertionsOf {α : Type} (x : α) : List α → List (List α)
  | [] => [[x]]
  | y :: ys => (x :: y :: ys) :: (insertionsOf x ys).map (y :: ·)

/-- All permutations of a list (by successive insertion). -/
def permsOf {α : Type} : List α → List (List α)
  | [] => [[]]
  | x :: xs => (permsOf xs).flatMap (insertionsOf x)

/-- Modelled from the spec (glossary "Variant"): two clauses are variants
iff equal up to (injective) variable renaming, as multisets of
literals. -/
def isVariantOf (ls1 ls2 : List Literal) : Bool :=
  (permsOf ls2).any (fun p => (matchLits [] ls1 p).isSome)

/-- Modelled from the spec: `_variantIndex.retrieveVariants` — find a
stored clause that is a variant of the queried literal list (the code
asserts at most one exists). -/
def retrieveVariants (s : SpState) (lits : List Literal) : Option Nat :=
  s.variantIndex.find? (fun i => isVariantOf (s.cl i).lits lits)

/-! ### Variable-disjoint components (modelled from the spec) -/

mutual

/-- The variables occurring in a term. -/
def Trm.vars : Trm → List Nat
  | .var n => [n]
  | .app _ args => Trm.varsList args

/-- The variables occurring in a term list. -/
def Trm.varsList : List Trm → List Nat
  | [] => []
  | t :: ts => Trm.vars t ++ Trm.varsList ts

end

/-- The variables occurring in a literal. -/
def Literal.varList (l : Literal) : List Nat := Trm.varsList l.args

/-- Modelled from the spec (§4.F): add literal index `i` with variable
set `vs` to the running groups, merging every group that shares a
variable with it (`Lib/IntUnionFind.hpp` is not under `src/`). -/
def addToGroups (groups : List (List Nat × List Nat)) (i : Nat)
    (vs : List Nat) : List (List Nat × List Nat) :=
  let share := groups.filter (fun g => g.2.any (fun v => vs.contains v))
  let keep := groups.filter (fun g => !g.2.any (fun v => vs.contains v))
  keep ++ [(share.foldl (fun acc g => acc ++ g.1) [] ++ [i],
    share.foldl (fun acc g => acc ++ g.2) [] ++ vs)]

/-- Modelled from the spec (§4.F): partition the literal indices of a
clause into variable-connected components (a ground literal forms its own
component). -/
def components (lits : List Literal) : List (List Nat) :=
  ((List.range lits.length).foldl
    (fun groups i =>
      addToGroups groups i (lits.getD i ⟨0, true, []⟩).varList)
    []).map (fun g => g.1)

/-- The test selecting propositional components: a singleton component
whose literal has arity 0 (`compLen==1 && lits.top()->arity()==0`). -/
def isPropSingleton (lits : List Literal) (g : List Nat) : Bool :=
  g.length == 1 && (lits.getD (g.getD 0 0) ⟨0, true, []⟩).args.isEmpty

/-! ### `Splitter::getPropPredName` and the propositional phase -/

/-- The result of `Splitter::getPropPredName`: the BDD variable `name`,
the naming premise clause, the `newPremise` flag (the C++ code assigns
the *old* cache pointer to it, so it is `true` exactly when the premise
already existed) and the updated state. -/
structure PropNameRes where
  name : Nat
  premise : Nat
  newPremise : Bool
  state : SpState
deriving DecidableEq

/-- `Splitter::getPropPredName`: allocate (or look up) the split variable
of the literal's predicate in `_propPredNames`; look up (or create and
record) the polarity-specific naming premise clause `{lit}` whose
propositional part is `atomic(name, lit->isNegative())`. -/
def getPropPredName (s : SpState) (lit : Literal) : PropNameRes :=
  let pred := lit.functor
  let ns :=
    match s.propPredNames.lookup pred with
    | some n => (n, s)
    | none =>
      (s.bddNextVar,
        { s with
          bddNextVar := s.bddNextVar + 1
          propPredNames := (pred, s.bddNextVar) :: s.propPredNames })
  let name := ns.1
  let s1 := ns.2
  let prems :=
    match lit.polarity with
    | true => s1.propPredPosNamePremises
    | false => s1.propPredNegNamePremises
  match prems.lookup pred with
  | some cid => ⟨name, cid, true, s1⟩
  | none =>
    let c : SplClause :=
      ⟨[lit], .axm, BDD.getAtomic name lit.isNegative,
        .inference0 .clauseNaming⟩
    let a := s1.alloc c
    let s3 := a.2.record (.nonPropInference a.1)
    let s4 :=
      match lit.polarity with
      | true => s3.pushPosPremise pred a.1
      | false => s3.pushNegPremise pred a.1
    ⟨name, a.1, false, s4⟩

/-- One iteration of the propositional-component loop of
`Splitter::doSplitting`: obtain the literal's split name and premise,
disjoin `atomic(name, lit->isPositive())` onto the accumulated master
propositional part, and push the premise onto the master premises. -/
def propCompStep (acc : SpState × BDDNode × List Nat) (lit : Literal) :
    SpState × BDDNode × List Nat :=
  let r := getPropPredName acc.1 lit
  (r.state,
    BDD.disjunction acc.2.1 (BDD.getAtomic r.name lit.isPositive),
    acc.2.2 ++ [r.premise])

/-- The literals of the singleton propositional components, in component
order. -/
def propLitsOf (lits : List Literal) (groups : List (List Nat)) :
    List Literal :=
  (groups.filter (isPropSingleton lits)).map
    (fun g => lits.getD (g.getD 0 0) ⟨0, true, []⟩)

/-- The whole propositional phase of `Splitter::doSplitting` (the first
loop over components). -/
def phase1 (lits : List Literal) (groups : List (List Nat)) (s : SpState)
    (mp : BDDNode) (prems : List Nat) : SpState × BDDNode × List Nat :=
  (propLitsOf lits groups).foldl propCompStep (s, mp, prems)

/-! ### The non-propositional phase of `doSplitting` -/

/-- The local state of the second component loop of
`Splitter::doSplitting`: the global state, the `remainingComps` counter,
the accumulated master propositional part and premises, the two component
stacks (head = top) and the optional already-chosen master component. -/
structure Loop2State where
  s : SpState
  remaining : Nat
  newMasterProp : BDDNode
  masterPremises : List Nat
  newComponentStack : List Nat
  unnamedComponentStack : List Nat
  masterComp : Option Nat
deriving DecidableEq

/-- One iteration of the second component loop of `doSplitting` for a
non-propositional component `g`: retrieve a variant from the index; a
named variant either becomes the master (when it is the last component
and the stacks are empty) or its name's positive atom is disjoined onto
the master propositional part — and if that part becomes ⊤ the whole
`doSplitting` returns at once (`Sum.inl` carries the state at that
point); an unnamed variant is stacked; with no variant a new component
clause is created, inserted into the index, recorded and stacked. -/
def phase2Step (lits : List Literal) (inpType : InputType)
    (ls : Loop2State) (g : List Nat) : Sum SpState Loop2State :=
  let compLits := g.map (fun i => lits.getD i ⟨0, true, []⟩)
  let ls1 := { ls with remaining := ls.remaining - 1 }
  match retrieveVariants ls.s compLits with
  | some comp =>
    match ls.s.clauseNames.lookup comp with
    | some compName =>
      if ls1.remaining = 0 ∧ ls.newComponentStack.isEmpty ∧
          ls.unnamedComponentStack.isEmpty then
        .inr { ls1 with masterComp := some comp }
      else
        let nmp := BDD.disjunction ls.newMasterProp
          (BDD.getAtomic compName true)
        if BDD.isTrue nmp then .inl ls.s
        else
          .inr { ls1 with
            newMasterProp := nmp
            masterPremises := ls.masterPremises ++ [comp] }
    | none =>
      .inr { ls1 with
        unnamedComponentStack := comp :: ls.unnamedComponentStack }
  | none =>
    let s1 := { ls.s with stats :=
      { ls.s.stats with uniqueComponents :=
          ls.s.stats.uniqueComponents + 1 } }
    let compCl : SplClause :=
      ⟨compLits.reverse, inpType, BDD.getTrue,
        .inference0 .tautologyIntroduction⟩
    let a := s1.alloc compCl
    let s3 := { a.2 with variantIndex := a.1 :: a.2.variantIndex }
    let s4 := s3.record (.nonPropInference a.1)
    .inr { ls1 with
      s := s4
      newComponentStack := a.1 :: ls.newComponentStack }

/-- The second component loop of `doSplitting`: iterate the components,
skipping the singleton propositional ones, with the early exit of the
⊤-check propagated. -/
def phase2 (lits : List Literal) (inpType : InputType) :
    List (List Nat) → Loop2State → Sum SpState Loop2State
  | [], ls => .inr ls
  | g :: gs, ls =>
    if isPropSingleton lits g then phase2 lits inpType gs ls
    else
      match phase2Step lits inpType ls g with
      | .inl sExit => .inl sExit
      | .inr ls2 => phase2 lits inpType gs ls2

/-! ### `insertIntoIndex`, master selection and the naming loop -/

/-- The result of `Splitter::insertIntoIndex`. -/
structure InsertRes where
  result : Nat
  newInserted : Bool
  modified : Bool
  state : SpState
deriving DecidableEq

/-- `Splitter::insertIntoIndex`: a variant in the index absorbs the
clause (conjoining the propositional parts and recording a merge when
that changes anything); otherwise the clause is inserted as a new unique
component. -/
def insertIntoIndex (s : SpState) (cl : Nat) : InsertRes :=
  match retrieveVariants s (s.cl cl).lits with
  | some comp =>
    let oldCompProp := (s.cl comp).prop
    let newCompProp := BDD.conjunction oldCompProp (s.cl cl).prop
    if oldCompProp = newCompProp then ⟨comp, false, false, s⟩
    else
      ⟨comp, false, true,
        (s.setProp comp newCompProp).record
          (.merge comp oldCompProp cl newCompProp)⟩
  | none =>
    let st2 := { s.stats with uniqueComponents := s.stats.uniqueComponents + 1 }
    ⟨cl, true, false,
      { s with
        stats := st2
        variantIndex := cl :: s.variantIndex }⟩

/-- The master-component selection after the second loop of
`doSplitting`: pop a new component if any (the master is then new), else
pop an unnamed one, else keep the named master; if none exists (the
clause consisted of propositional literals only) a fresh empty clause
with ⊤ propositional part is created and passed through
`insertIntoIndex`. Returns (masterNew, masterComp, updated local
state). -/
def pickMaster (ls : Loop2State) : Bool × Nat × Loop2State :=
  match ls.newComponentStack with
  | c :: rest => (true, c, { ls with newComponentStack := rest })
  | [] =>
    match ls.unnamedComponentStack with
    | c :: rest => (false, c, { ls with unnamedComponentStack := rest })
    | [] =>
      match ls.masterComp with
      | some m => (false, m, ls)
      | none =>
        let emptyCl : SplClause :=
          ⟨[], .axm, BDD.getTrue, .inference0 .tautologyIntroduction⟩
        let a := ls.s.alloc emptyCl
        let r := insertIntoIndex a.2 a.1
        (r.result == a.1, r.result, { ls with s := r.state })

/-- The naming loop of `doSplitting` over the concatenation of the two
component stacks (after the master was popped): allocate a fresh BDD
variable, and when the component was not already named, name it, conjoin
`atomic(name, false)` onto its propositional part (recording the
alteration when it changes), disjoin `atomic(name, true)` onto the master
propositional part, and push the component onto the master premises. -/
def nameLoop (masterComp : Nat) :
    List Nat → SpState → BDDNode → List Nat → SpState × BDDNode × List Nat
  | [], s, nmp, prems => (s, nmp, prems)
  | comp :: rest, s, nmp, prems =>
    if comp = masterComp then nameLoop masterComp rest s nmp prems
    else
      let compName := s.bddNextVar
      let s1 := { s with bddNextVar := s.bddNextVar + 1 }
      if (s1.clauseNames.lookup comp).isSome then
        nameLoop masterComp rest s1 nmp prems
      else
        let s2 := { s1 with clauseNames := (comp, compName) :: s1.clauseNames }
        let oldCompProp := (s2.cl comp).prop
        let newCompProp :=
          BDD.conjunction oldCompProp (BDD.getAtomic compName false)
        let s3 :=
          if newCompProp ≠ oldCompProp then
            (s2.setProp comp newCompProp).record
              (.propAlter comp oldCompProp newCompProp .clauseNaming)
          else s2
        nameLoop masterComp rest s3
          (BDD.disjunction nmp (BDD.getAtomic compName true))
          (prems ++ [comp])

/-! ### `handleNoSplit` and `doSplitting` -/

/-- The propositional-unit replacement inside `Splitter::handleNoSplit`:
route the single arity-0 literal through `getPropPredName` and build the
0-length clause whose propositional part is
`atomic(name, lit->isPositive())`, derived by a `SPLITTING` inference
from the original clause and the naming premise; record it. Returns the
new clause id and the state. -/
def namePropUnit (s : SpState) (cl : Nat) : Nat × SpState :=
  let lit := (s.cl cl).lits.getD 0 ⟨0, true, []⟩
  let r := getPropPredName s lit
  let newCl : SplClause :=
    ⟨[], (s.cl cl).inputType, BDD.getAtomic r.name lit.isPositive,
      .inference2 .splitting cl r.premise⟩
  let a := r.state.alloc newCl
  (a.1, a.2.record (.nonPropInference a.1))

/-- The second half of `Splitter::handleNoSplit`: pass the (possibly
replaced) clause through `insertIntoIndex`; a fresh insertion is emitted
as a new component; a variant merge is emitted as a modified component —
except that a merge into the empty clause with ⊥ propositional part
copies that part onto the clause and emits the clause itself as new (the
refutation). -/
def noSplitInsert (s : SpState) (cl : Nat) : SpState × List Nat × List Nat :=
  let r := insertIntoIndex s cl
  if r.newInserted then
    (r.state, [r.result], [])
  else if r.modified then
    if (r.state.cl r.result).lits = [] ∧
        BDD.isFalse (r.state.cl r.result).prop then
      let oldClProp := (r.state.cl cl).prop
      let s2 := (r.state.setProp cl (r.state.cl r.result).prop).record
        (.merge cl oldClProp r.result ((r.state.cl r.result).prop))
      (s2, [cl], [])
    else (r.state, [], [r.result])
  else (r.state, [], [])

/-- `Splitter::handleNoSplit`: a single-literal arity-0 clause is first
replaced through `namePropUnit`; the (possibly replaced) clause then goes
through the insertion dispatch `noSplitInsert`. -/
def handleNoSplit (s : SpState) (cl : Nat) : SpState × List Nat × List Nat :=
  let c := s.cl cl
  let wk :=
    if c.lits.length = 1 ∧ (c.lits.getD 0 ⟨0, true, []⟩).args = [] then
      namePropUnit s cl
    else (cl, s)
  noSplitInsert wk.2 wk.1

/-- `Splitter::doSplitting`: clauses of length ≤ 1 or with a single
variable-connected component go through `handleNoSplit`; otherwise the
statistics are bumped, the propositional components are folded into the
master propositional part (phase 1), the remaining components are
processed against the variant index (phase 2, with the early discard on a
⊤ propositional part), the master component is selected, the unnamed
components are named, and the master clause's propositional part is
conjoined with the accumulated disjunction and the `SPLITTING` event
recorded; the new and modified component lists are returned. -/
def doSplitting (s : SpState) (cl : Nat) : SpState × List Nat × List Nat :=
  let c := s.cl cl
  if c.lits.length ≤ 1 then handleNoSplit s cl
  else
    let groups := components c.lits
    if groups.length = 1 then handleNoSplit s cl
    else
      let st2 := { s.stats with
        splittedClauses := s.stats.splittedClauses + 1
        splittedComponents := s.stats.splittedComponents + groups.length }
      let s0 := { s with stats := st2 }
      let p1 := phase1 c.lits groups s0 c.prop [cl]
      let propCount := (groups.filter (isPropSingleton c.lits)).length
      let init : Loop2State :=
        ⟨p1.1, groups.length - propCount, p1.2.1, p1.2.2, [], [], none⟩
      match phase2 c.lits c.inputType groups init with
      | .inl sExit => (sExit, [], [])
      | .inr ls =>
        let pm := pickMaster ls
        let ls2 := pm.2.2
        let nl := nameLoop pm.2.1 (ls2.newComponentStack ++
          ls2.unnamedComponentStack) ls2.s ls2.newMasterProp
          ls2.masterPremises
        let oldProp := (nl.1.cl pm.2.1).prop
        let newProp := BDD.conjunction oldProp nl.2.1
        let sP := (nl.1.setProp pm.2.1 newProp).record
          (.splitting pm.2.1 oldProp newProp nl.2.2)
        if pm.1 then
          (sP, pm.2.1 :: ls2.newComponentStack, ls2.unnamedComponentStack)
        else
          if oldProp ≠ newProp then
            (sP, ls2.newComponentStack, pm.2.1 :: ls2.unnamedComponentStack)
          else
            (sP, ls2.newComponentStack, ls2.unnamedComponentStack)

/-- Well-formedness of the splitter state: every variant-index entry is
an already-allocated clause, and every cached naming premise
refers to an already-allocated clause that is not in the variant index,
is the one-literal clause of its predicate and polarity with the
complementary atomic propositional part over the predicate's split name,
and is recorded in the inference store. -/
def PropPremWF (s : SpState) : Prop :=
  (∀ i ∈ s.variantIndex, i < s.nextCl) ∧
  (∀ pr cid, (pr, cid) ∈ s.propPredPosNamePremises →
    cid < s.nextCl ∧ cid ∉ s.variantIndex ∧
    ∃ n, s.propPredNames.lookup pr = some n ∧
      (s.cl cid).lits = [⟨pr, true, []⟩] ∧
      (s.cl cid).prop = BDD.getAtomic n false ∧
      StoreEvent.nonPropInference cid ∈ s.store) ∧
  (∀ pr cid, (pr, cid) ∈ s.propPredNegNamePremises →
    cid < s.nextCl ∧ cid ∉ s.variantIndex ∧
    ∃ n, s.propPredNames.lookup pr = some n ∧
      (s.cl cid).lits = [⟨pr, false, []⟩] ∧
      (s.cl cid).prop = BDD.getAtomic n true ∧
      StoreEvent.nonPropInference cid ∈ s.store)

/-- The identities of all cached naming premises of a state. -/
def premiseIds (s : SpState) : List Nat :=
  (s.propPredPosNamePremises ++ s.propPredNegNamePremises).map (fun e => e.2)

/-- Invariant of the second component loop of `doSplitting`: the state is
well formed and both component stacks and the chosen master component
hold variant-index members. -/
def Loop2Inv (ls : Loop2State) : Prop :=
  PropPremWF ls.s ∧
  (∀ c ∈ ls.newComponentStack, c ∈ ls.s.variantIndex) ∧
  (∀ c ∈ ls.unnamedComponentStack, c ∈ ls.s.variantIndex) ∧
  (∀ m, ls.masterComp = some m → m ∈ ls.s.variantIndex)

/-! ## Theorems: literal headers (C7) -/

/-- C7: for every literal with predicate number `p` and polarity `q`,
`header() = 2*p + q` and `complementaryHeader() = 2*p + 1 - q`; the
conversions round-trip (`headerToPredicateNumber (header l) = p`,
`headerToPolarity (header l) = q`); and `complementaryHeader l` equals the
header of the literal with the same predicate and opposite polarity. -/
theorem literal_header_spec (l : Literal) :
    l.header = 2 * l.functor + l.polarityN ∧
    l.complementaryHeader = 2 * l.functor + 1 - l.polarityN ∧
    Literal.headerToPredicateNumber l.header = l.functor ∧
    Literal.headerToPolarity l.header = l.polarityN ∧
    l.complementaryHeader = l.negated.header := by
  cases hq : l.polarity <;>
    refine ⟨rfl, rfl, ?_, ?_, ?_⟩ <;>
    simp [Literal.header, Literal.headerToPredicateNumber,
      Literal.headerToPolarity, Literal.polarityN, Literal.negated,
      Literal.complementaryHeader, hq] <;>
    omega

/-! ## Theorems: termination reason (C8) -/

/-- C8: the termination reason ranges over exactly the six enumerators
`REFUTATION, SATISFIABLE, REFUTATION_NOT_FOUND, UNKNOWN, TIME_LIMIT,
MEMORY_LIMIT` (no other value is representable), and the statistics record
carries a (nullable) refutation-unit pointer field that can hold any unit. -/
theorem termination_reason_spec :
    (∀ r : TerminationReason,
      r = .REFUTATION ∨ r = .SATISFIABLE ∨ r = .REFUTATION_NOT_FOUND ∨
      r = .UNKNOWN ∨ r = .TIME_LIMIT ∨ r = .MEMORY_LIMIT) ∧
    (∀ (s : Statistics) (u : Option Nat),
      ({ s with refutation := u } : Statistics).refutation = u) := by
  constructor
  · intro r; cases r <;> simp
  · intro s u; rfl

/-! ## Theorems: SAT clause-sharing hasher off-by-one (C9) -/

/-- C9: `ClauseSharing::Hasher::equals` compares from index `n =
c1->length()` down to 0, so its first read is one past the last valid
index; under the total embedding every call on equal-length clauses takes
the error branch. -/
theorem hasher_equals_overflow (c1 c2 : List Nat)
    (h : c1.length = c2.length) :
    hasherEquals c1 c2 = .error () := by
  unfold hasherEquals
  rw [if_neg (by omega)]
  have hn : satNth c1 c1.length = .error () := by
    simp [satNth]
  cases hl : c1.length with
  | zero =>
    rw [hl] at hn
    simp [hasherEqualsFrom, hn]
  | succ k =>
    rw [hl] at hn
    simp [hasherEqualsFrom, hn]

/-- Witness for C9 at a concrete input. -/
theorem hasher_equals_overflow_witness :
    ([3, 4] : List Nat).length = ([5, 6] : List Nat).length ∧
    hasherEquals [3, 4] [5, 6] = .error () :=
  ⟨rfl, hasher_equals_overflow [3, 4] [5, 6] rfl⟩

/-! ## Theorems: answer capture during saturation (C1) -/

/-- A successful association-list lookup means the pair is a member. -/
theorem lookup_mem {α β : Type} [BEq α] [LawfulBEq α] :
    ∀ {l : List (α × β)} {a : α} {b : β},
      l.lookup a = some b → (a, b) ∈ l
  | [], _, _, h => by cases h
  | (k, v) :: es, a, b, h => by
    by_cases hk : a == k
    · simp only [List.lookup, hk, if_true, Option.some.injEq] at h
      simp [eq_of_beq hk, h]
    · simp only [List.lookup, hk, if_false, Bool.false_eq_true] at h
      exact List.mem_cons_of_mem _ (lookup_mem h)

/-- Under the resolver-cache invariant, `getResolverClause` yields exactly
the canonical resolver clause and preserves the invariant and the
answers stack. -/
theorem getResolverClause_spec (sig : ASig) (st : AnsState) (p : Nat)
    (hinv : ResolverInv sig st) :
    (getResolverClause sig st p).1 = resolverFor sig p ∧
    (getResolverClause sig st p).2.answers = st.answers ∧
    ResolverInv sig (getResolverClause sig st p).2 := by
  unfold getResolverClause
  cases hc : st.resolverClauses.lookup p with
  | none =>
    refine ⟨rfl, rfl, ?_⟩
    intro q c hq
    simp only [List.mem_cons] at hq
    rcases hq with hq | hq
    · have h1 : q = p := congrArg Prod.fst hq
      have h2 : c = resolverFor sig p := congrArg Prod.snd hq
      rw [h2, h1]
    · exact hinv q c hq
  | some c =>
    exact ⟨hinv p c (lookup_mem hc), rfl, hinv⟩

/-- The premise-building fold of `getRefutation` produces, under the
resolver-cache invariant, the reversed list of the literals' resolver
clauses in front of the initial accumulator, and preserves the answers
stack. -/
theorem pushResolverPremise_foldl (sig : ASig) :
    ∀ (lits : List Literal) (acc : List AClause) (st : AnsState),
      ResolverInv sig st →
      (lits.foldl (pushResolverPremise sig) (acc, st)).1 =
        (lits.map (fun l => resolverFor sig l.functor)).reverse ++ acc ∧
      (lits.foldl (pushResolverPremise sig) (acc, st)).2.answers =
        st.answers
  | [], acc, st, _ => ⟨rfl, rfl⟩
  | l :: ls, acc, st, hinv => by
    obtain ⟨h1, h2, h3⟩ := getResolverClause_spec sig st l.functor hinv
    have step :
        pushResolverPremise sig (acc, st) l =
          (resolverFor sig l.functor :: acc,
            (getResolverClause sig st l.functor).2) := by
      unfold pushResolverPremise
      rw [← h1]
    obtain ⟨ih1, ih2⟩ := pushResolverPremise_foldl sig ls
      (resolverFor sig l.functor :: acc)
      (getResolverClause sig st l.functor).2 h3
    refine ⟨?_, ?_⟩
    · rw [List.foldl_cons, step, ih1]
      simp
    · rw [List.foldl_cons, step, ih2, h2]

/-- C1 counterexample: a clause consisting of a single *negative* answer
literal, with empty propositional part and no splits, is still captured
and still triggers the synthetic refutation, so the claimed equivalence
(capture iff all literals are *positive* answer literals) fails. -/
theorem onNewClause_positive_counterexample :
    ¬ (((onNewClause ⟨[⟨0, false⟩, ⟨0, true⟩]⟩ ⟨[], []⟩
          ⟨[⟨1, false, []⟩], .axm, .fls, [], .inputR⟩).2.isSome = true) ↔
        ((⟨[⟨1, false, []⟩], .axm, .fls, [], .inputR⟩ : AClause).noProp = true ∧
         (⟨[⟨1, false, []⟩], .axm, .fls, [], .inputR⟩ : AClause).noSplits = true ∧
         ([⟨1, false, []⟩] : List Literal).all
           (fun l => isAnswerLiteral ⟨[⟨0, false⟩, ⟨0, true⟩]⟩ l &&
             l.isPositive) = true)) := by
  decide

/-- C1 (amended): a new clause is captured as a candidate answer and the
saturation loop aborted by a synthetic refutation iff it has empty
propositional part, no splits, and every literal is an answer literal
(of either polarity); the refutation is an empty clause derived by
`UNIT_RESULTING_RESOLUTION` whose premises are the resolver clauses of the
literals' answer predicates followed by the captured clause. -/
theorem onNewClause_spec (sig : ASig) (st : AnsState) (cl : AClause)
    (hinv : ResolverInv sig st) :
    (((onNewClause sig st cl).2.isSome = true) ↔
      (cl.noProp = true ∧ cl.noSplits = true ∧
        ∀ l ∈ cl.lits, isAnswerLiteral sig l = true)) ∧
    ((cl.noProp = true ∧ cl.noSplits = true ∧
        ∀ l ∈ cl.lits, isAnswerLiteral sig l = true) →
      ∃ st', onNewClause sig st cl =
          (st', some
            { lits := [], inputType := cl.inputType,
              rule := .unitResultingResolution,
              premises :=
                (cl.lits.map (fun l => resolverFor sig l.functor)).reverse
                  ++ [cl] }) ∧
        st'.answers = cl :: st.answers) := by
  constructor
  · unfold onNewClause
    by_cases h1 : cl.noProp && cl.noSplits
    · rw [h1]
      by_cases h2 : cl.lits.all (fun l => isAnswerLiteral sig l)
      · simp only [h2, Bool.not_true, Bool.false_eq_true, if_false,
          Option.isSome_some]
        simp only [Bool.and_eq_true] at h1
        simp only [List.all_eq_true] at h2
        simp only [true_iff]
        exact ⟨h1.1, h1.2, fun l hl => h2 l hl⟩
      · simp only [Bool.not_eq_true] at h2
        simp only [h2, Bool.not_false, if_true, Option.isSome_none]
        constructor
        · intro h; exact absurd h (by simp)
        · rintro ⟨-, -, hall⟩
          rw [List.all_eq_true.2 (fun l hl => hall l hl)] at h2
          cases h2
    · simp only [Bool.and_eq_true, not_and_or, Bool.not_eq_true] at h1
      have hcond : (cl.noProp && cl.noSplits) = false := by
        rcases h1 with h | h <;> simp [h]
      simp only [hcond, Bool.not_false, if_true, Option.isSome_none]
      constructor
      · intro h; exact absurd h (by simp)
      · rintro ⟨hp, hs, -⟩
        rcases h1 with h | h
        · rw [hp] at h; cases h
        · rw [hs] at h; cases h
  · rintro ⟨hp, hs, hall⟩
    unfold onNewClause
    have hcond : (cl.noProp && cl.noSplits) = true := by simp [hp, hs]
    have hall' : cl.lits.all (fun l => isAnswerLiteral sig l) = true :=
      List.all_eq_true.2 (fun l hl => hall l hl)
    rw [hcond, hall']
    simp only [Bool.not_true, Bool.false_eq_true, if_false]
    obtain ⟨hfold1, hfold2⟩ :=
      pushResolverPremise_foldl sig cl.lits [cl]
        { st with answers := cl :: st.answers } hinv
    refine ⟨(cl.lits.foldl (pushResolverPremise sig)
      ([cl], { st with answers := cl :: st.answers })).2, ?_, ?_⟩
    · unfold getRefutation
      simp only [hfold1]
    · rw [hfold2]

/-- Witness for C1 (amended) at a concrete input: a unit clause of a
positive answer literal of arity 1 is captured and the refutation premises
are its resolver clause followed by the clause itself. -/
theorem onNewClause_spec_witness :
    ResolverInv ⟨[⟨0, false⟩, ⟨1, true⟩]⟩ ⟨[], []⟩ ∧
    ((⟨[⟨1, true, [.var 7]⟩], .conjecture, .fls, [], .inputR⟩ : AClause).noProp = true ∧
      (⟨[⟨1, true, [.var 7]⟩], .conjecture, .fls, [], .inputR⟩ : AClause).noSplits = true ∧
      ∀ l ∈ ([⟨1, true, [.var 7]⟩] : List Literal),
        isAnswerLiteral ⟨[⟨0, false⟩, ⟨1, true⟩]⟩ l = true) ∧
    ((onNewClause ⟨[⟨0, false⟩, ⟨1, true⟩]⟩ ⟨[], []⟩
        ⟨[⟨1, true, [.var 7]⟩], .conjecture, .fls, [], .inputR⟩).2.isSome = true) := by
  have hinv : ResolverInv ⟨[⟨0, false⟩, ⟨1, true⟩]⟩ ⟨[], []⟩ := by
    intro p c h; cases h
  have hcond :
      ((⟨[⟨1, true, [.var 7]⟩], .conjecture, .fls, [], .inputR⟩ : AClause).noProp = true ∧
        (⟨[⟨1, true, [.var 7]⟩], .conjecture, .fls, [], .inputR⟩ : AClause).noSplits = true ∧
        ∀ l ∈ ([⟨1, true, [.var 7]⟩] : List Literal),
          isAnswerLiteral ⟨[⟨0, false⟩, ⟨1, true⟩]⟩ l = true) := by
    decide
  refine ⟨hinv, hcond, ?_⟩
  exact ((onNewClause_spec ⟨[⟨0, false⟩, ⟨1, true⟩]⟩ ⟨[], []⟩
    ⟨[⟨1, true, [.var 7]⟩], .conjecture, .fls, [], .inputR⟩ hinv).1).2 hcond

/-! ## Theorems: answer-literal injection (C5) -/

/-- Appending one element and then overwriting the appended slot. -/
theorem set_append_length {α : Type} (l : List α) (a b : α) :
    (l ++ [a]).set l.length b = l ++ [b] := by
  induction l with
  | nil => rfl
  | cons x xs ih => simp [List.set, ih]

/-- Reading the slot just past `l` in `l ++ [a]`. -/
theorem getD_append_length {α : Type} (l : List α) (a d : α) :
    (l ++ [a]).getD l.length d = a := by
  rw [List.getD_eq_getElem?_getD, List.getElem?_concat_length]
  rfl

/-- `getAnswerLiteral` builds the positive literal `ans(x1,…,xn)` over a
fresh predicate (number = old signature size) of arity `n`, and the
resulting signature carries that predicate marked as an answer
predicate. -/
theorem getAnswerLiteral_spec (sig : ASig) (vars : List Nat) :
    (getAnswerLiteral sig vars).1 =
      ⟨sig.preds.length, true, vars.map Trm.var⟩ ∧
    (getAnswerLiteral sig vars).2 =
      ⟨sig.preds ++ [⟨vars.length, true⟩]⟩ ∧
    ((getAnswerLiteral sig vars).2.getPred sig.preds.length).answerPredicate
      = true ∧
    ((getAnswerLiteral sig vars).2.getPred sig.preds.length).arity
      = vars.length := by
  have hlen : (vars.map Trm.var).length = vars.length := List.length_map _ _
  have hsig2 : (getAnswerLiteral sig vars).2 =
      ⟨sig.preds ++ [⟨vars.length, true⟩]⟩ := by
    unfold getAnswerLiteral ASig.addNamePredicate ASig.markAnswerPredicate
      ASig.getPred
    simp only [hlen]
    rw [getD_append_length, set_append_length]
  refine ⟨rfl, hsig2, ?_, ?_⟩ <;>
    rw [hsig2] <;>
    simp [ASig.getPred, getD_append_length]

/-- A formula unit whose inference points back to `u` is distinct from
`u` itself (no unit is its own strict subterm). -/
theorem formulaU_answerLiteral_ne (f : Formula) (t : InputType) (u : AUnit) :
    AUnit.formulaU f t (.answerLiteral u) ≠ u := by
  intro h
  have hs := congrArg sizeOf h
  simp at hs
  omega

/-- C5: `tryAddingAnswerLiteral` replaces `u` by a new formula unit iff
`u` is a non-clause unit of input type CONJECTURE whose formula has the
shape `¬∃x̄. φ`; the replacement is the flattening of
`¬∃x̄. AND[ans(x̄), φ]` where `ans` is a fresh predicate of arity `n`
(the number of quantified variables) marked as an answer predicate, with
an `ANSWER_LITERAL` inference from `u`; all other units are returned
unchanged. -/
theorem tryAddingAnswerLiteral_spec (sig : ASig) (u : AUnit) :
    (((tryAddingAnswerLiteral sig u).2 ≠ u) ↔
      isNegExistsConjecture u = true) ∧
    (∀ vars phi inf,
      u = .formulaU (.neg (.fExists vars phi)) .conjecture inf →
      tryAddingAnswerLiteral sig u =
        (⟨sig.preds ++ [⟨vars.length, true⟩]⟩,
          .formulaU
            ((Formula.neg (.fExists vars (.conj
              [.literal ⟨sig.preds.length, true, vars.map Trm.var⟩,
                phi]))).flatten)
            .conjecture (.answerLiteral u)) ∧
      ((tryAddingAnswerLiteral sig u).1.getPred
          sig.preds.length).answerPredicate = true ∧
      ((tryAddingAnswerLiteral sig u).1.getPred
          sig.preds.length).arity = vars.length) ∧
    (isNegExistsConjecture u = false →
      tryAddingAnswerLiteral sig u = (sig, u)) := by
  by_cases hshape : isNegExistsConjecture u = true
  · obtain ⟨vars, phi, inf, rfl⟩ :
        ∃ vars phi inf,
          u = .formulaU (.neg (.fExists vars phi)) .conjecture inf := by
      cases u with
      | clauseU lits t => simp [isNegExistsConjecture] at hshape
      | formulaU form t inf =>
        cases form with
        | neg g =>
          cases g with
          | fExists vars phi =>
            simp only [isNegExistsConjecture, beq_iff_eq] at hshape
            exact ⟨vars, phi, inf, by rw [hshape]⟩
          | literal l => simp [isNegExistsConjecture] at hshape
          | conj as => simp [isNegExistsConjecture] at hshape
          | disj as => simp [isNegExistsConjecture] at hshape
          | neg g2 => simp [isNegExistsConjecture] at hshape
          | fAll vs g2 => simp [isNegExistsConjecture] at hshape
        | literal l => simp [isNegExistsConjecture] at hshape
        | conj as => simp [isNegExistsConjecture] at hshape
        | disj as => simp [isNegExistsConjecture] at hshape
        | fAll vs g => simp [isNegExistsConjecture] at hshape
        | fExists vs g => simp [isNegExistsConjecture] at hshape
    obtain ⟨h1, h2, h3, h4⟩ := getAnswerLiteral_spec sig vars
    have hre : tryAddingAnswerLiteral sig
        (.formulaU (.neg (.fExists vars phi)) .conjecture inf) =
        ((getAnswerLiteral sig vars).2,
          .formulaU
            ((Formula.neg (.fExists vars (.conj
              [.literal (getAnswerLiteral sig vars).1, phi]))).flatten)
            .conjecture
            (.answerLiteral
              (.formulaU (.neg (.fExists vars phi)) .conjecture inf))) :=
      rfl
    refine ⟨?_, ?_, ?_⟩
    · rw [hre]
      simp only [hshape, iff_true]
      exact formulaU_answerLiteral_ne _ _ _
    · intro vars' phi' inf' h
      injection h with hf ht hi
      injection hf with hg
      injection hg with hv hp
      subst hv; subst hp; subst hi
      rw [hre, h1, h2]
      exact ⟨rfl, by rw [← h2]; exact h3, by rw [← h2]; exact h4⟩
    · intro hfalse; rw [hshape] at hfalse; cases hfalse
  · have hfalse : isNegExistsConjecture u = false := by
      cases hb : isNegExistsConjecture u
      · rfl
      · exact absurd hb hshape
    have hunch : tryAddingAnswerLiteral sig u = (sig, u) := by
      cases u with
      | clauseU lits t => rfl
      | formulaU form t inf =>
        by_cases ht : t = .conjecture
        · subst ht
          cases form with
          | neg g =>
            cases g with
            | fExists vars phi => simp [isNegExistsConjecture] at hfalse
            | literal l => rfl
            | conj as => rfl
            | disj as => rfl
            | neg g2 => rfl
            | fAll vs g2 => rfl
          | literal l => rfl
          | conj as => rfl
          | disj as => rfl
          | fAll vs g => rfl
          | fExists vs g => rfl
        · simp [tryAddingAnswerLiteral, ht]
    refine ⟨?_, ?_, fun _ => hunch⟩
    · rw [hunch, hfalse]
      simp
    · intro vars' phi' inf' h
      rw [h] at hfalse
      simp [isNegExistsConjecture] at hfalse

/-- Witness for C5 at a concrete input: the conjecture `¬∃x0. p1(x0)`
(with `p1` predicate number 1 of a two-predicate signature) is replaced by
the flattened `¬∃x0. AND[ans(x0), p1(x0)]` with the fresh answer predicate
number 2 of arity 1. -/
theorem tryAddingAnswerLiteral_spec_witness :
    tryAddingAnswerLiteral ⟨[⟨0, false⟩, ⟨1, false⟩]⟩
      (.formulaU (.neg (.fExists [0] (.literal ⟨1, true, [.var 0]⟩)))
        .conjecture .initial) =
      (⟨[⟨0, false⟩, ⟨1, false⟩, ⟨1, true⟩]⟩,
        .formulaU
          ((Formula.neg (.fExists [0] (.conj
            [.literal ⟨2, true, [.var 0]⟩,
              .literal ⟨1, true, [.var 0]⟩]))).flatten)
          .conjecture
          (.answerLiteral
            (.formulaU (.neg (.fExists [0] (.literal ⟨1, true, [.var 0]⟩)))
              .conjecture .initial))) :=
  ((tryAddingAnswerLiteral_spec ⟨[⟨0, false⟩, ⟨1, false⟩]⟩
      (.formulaU (.neg (.fExists [0] (.literal ⟨1, true, [.var 0]⟩)))
        .conjecture .initial)).2.1 [0] (.literal ⟨1, true, [.var 0]⟩)
      .initial rfl).1

/-! ## Theorems: equality-unification fallback of the goal extractor (C6) -/

/-- `nextGoalUnif` never changes the depth, the backtrack data or the goal
literals. -/
theorem nextGoalUnif_frame (st : SBState) :
    (nextGoalUnif st).2.depth = st.depth ∧
    (nextGoalUnif st).2.btData = st.btData ∧
    (nextGoalUnif st).2.goalLits = st.goalLits := by
  unfold nextGoalUnif
  cases hv : goalUnifLoop (currentGoal st) st.subst
      (st.unifIts.getD st.depth []) with
  | mk o rest =>
    cases o with
    | some s2 => exact ⟨rfl, rfl, rfl⟩
    | none =>
      dsimp only
      split
      · split <;> exact ⟨rfl, rfl, rfl⟩
      · exact ⟨rfl, rfl, rfl⟩

/-- C6: at every goal literal, once the lemma-unification iterator is
exhausted, the fallback two-sided unification of the goal's argument terms
(both in bank 0) is attempted iff the goal literal is a positive equality
and the fallback was not yet tried at this depth; the attempt happens at
most once per entry of the depth (the tried flag is set and a second call
declines); and when `nextGoalUnif` fails, `run`'s loop body backtracks the
substitution to the checkpoint of the depth and steps one level up (or
gives up at depth 0). -/
theorem nextGoalUnif_fallback_spec (lemmas : List Literal) (st : SBState)
    (hd : st.unifIts.getD st.depth [] = []) :
    ((st.triedEqUnif.getD st.depth false = false ∧
        ((currentGoal st).isEquality && (currentGoal st).isPositive)
          = true) →
      (nextGoalUnif st).2.triedEqUnif = st.triedEqUnif.set st.depth true ∧
      (nextGoalUnif st).1 = (eqFallback st).isSome ∧
      (eqFallback st = none → (nextGoalUnif st).2.subst = st.subst) ∧
      (∀ s2, eqFallback st = some s2 → (nextGoalUnif st).2.subst = s2)) ∧
    ((st.triedEqUnif.getD st.depth false = false ∧
        ((currentGoal st).isEquality && (currentGoal st).isPositive)
          = false) →
      nextGoalUnif st =
        (false, { st with unifIts := st.unifIts.set st.depth [] })) ∧
    (st.triedEqUnif.getD st.depth false = true →
      nextGoalUnif st =
        (false, { st with unifIts := st.unifIts.set st.depth [] })) ∧
    ((nextGoalUnif st).1 = false →
      (leaveGoal (nextGoalUnif st).2).subst = st.btData.getD st.depth [] ∧
      (st.depth = 0 →
        runStep lemmas st = .failure (leaveGoal (nextGoalUnif st).2)) ∧
      (st.depth ≠ 0 →
        runStep lemmas st =
          .proceed { leaveGoal (nextGoalUnif st).2 with
            depth := st.depth - 1 })) := by
  have hred : nextGoalUnif st =
      (let st1 := { st with unifIts := st.unifIts.set st.depth [] }
       if !(st.triedEqUnif.getD st.depth false) &&
           (currentGoal st).isEquality && (currentGoal st).isPositive then
         let st2 :=
           { st1 with triedEqUnif := st1.triedEqUnif.set st.depth true }
         match eqFallback st with
         | some s2 => (true, { st2 with subst := s2 })
         | none => (false, st2)
       else (false, st1)) := by
    unfold nextGoalUnif
    rw [hd]
    rfl
  refine ⟨?_, ?_, ?_, ?_⟩
  · rintro ⟨ht, hgl⟩
    rw [Bool.and_eq_true] at hgl
    have hcondT : (!(st.triedEqUnif.getD st.depth false) &&
        (currentGoal st).isEquality && (currentGoal st).isPositive)
          = true := by
      simp only [ht, hgl.1, hgl.2, Bool.not_false, Bool.true_and,
        Bool.and_self]
    rw [hred, hcondT]
    cases hf : eqFallback st with
    | none =>
      exact ⟨rfl, rfl, fun _ => rfl, fun s2 h => Option.noConfusion h⟩
    | some s2 =>
      exact ⟨rfl, rfl, fun h => Option.noConfusion h,
        fun s3 h => Option.some.inj h⟩
  · rintro ⟨ht, hgl⟩
    have hcondF : (!(st.triedEqUnif.getD st.depth false) &&
        (currentGoal st).isEquality && (currentGoal st).isPositive)
          = false := by
      simp only [ht, Bool.not_false, Bool.true_and, hgl]
    rw [hred, hcondF]
    rfl
  · intro ht
    have hcondF : (!(st.triedEqUnif.getD st.depth false) &&
        (currentGoal st).isEquality && (currentGoal st).isPositive)
          = false := by
      simp only [ht, Bool.not_true, Bool.false_and]
    rw [hred, hcondF]
    rfl
  · intro hfail
    obtain ⟨hdep, hbt, hgoals⟩ := nextGoalUnif_frame st
    have hsplit : nextGoalUnif st = (false, (nextGoalUnif st).2) := by
      rw [← hfail]
    have hlsub : (leaveGoal (nextGoalUnif st).2).subst =
        st.btData.getD st.depth [] := by
      show (nextGoalUnif st).2.btData.getD (nextGoalUnif st).2.depth [] = _
      rw [hbt, hdep]
    have hldep : (leaveGoal (nextGoalUnif st).2).depth = st.depth := hdep
    refine ⟨hlsub, ?_, ?_⟩
    · intro h0
      unfold runStep
      rw [hsplit]
      dsimp only
      rw [if_pos (hldep.trans h0)]
    · intro h0
      unfold runStep
      rw [hsplit]
      dsimp only
      rw [if_neg (fun hc => h0 (hldep.symm.trans hc)), hldep]

/-- Witness for C6 at a concrete input: a positive equality goal
`X1 = f3` with an exhausted iterator and an untried fallback flag; the
fallback is attempted (the tried flag flips) and its success is reported. -/
theorem nextGoalUnif_fallback_spec_witness :
    ((⟨[⟨0, true, [.var 1, .app 3 []]⟩], [[]], [false], [[]], [], 0⟩
        : SBState).unifIts.getD
      (⟨[⟨0, true, [.var 1, .app 3 []]⟩], [[]], [false], [[]], [], 0⟩
        : SBState).depth [] = []) ∧
    (nextGoalUnif
        (⟨[⟨0, true, [.var 1, .app 3 []]⟩], [[]], [false], [[]], [], 0⟩
          : SBState)).2.triedEqUnif =
      (⟨[⟨0, true, [.var 1, .app 3 []]⟩], [[]], [false], [[]], [], 0⟩
        : SBState).triedEqUnif.set 0 true ∧
    (nextGoalUnif
        (⟨[⟨0, true, [.var 1, .app 3 []]⟩], [[]], [false], [[]], [], 0⟩
          : SBState)).1 =
      (eqFallback
        (⟨[⟨0, true, [.var 1, .app 3 []]⟩], [[]], [false], [[]], [], 0⟩
          : SBState)).isSome := by
  have h := (nextGoalUnif_fallback_spec []
    (⟨[⟨0, true, [.var 1, .app 3 []]⟩], [[]], [false], [[]], [], 0⟩
      : SBState) rfl).1 ⟨rfl, by decide⟩
  exact ⟨rfl, h.1, h.2.1⟩

/-! ## Helper lemmas: the splitter's heap and state -/

/-- Looking up the key just prepended. -/
theorem lookup_cons_self {β : Type} (k : Nat) (v : β) (t : List (Nat × β)) :
    List.lookup k ((k, v) :: t) = some v := by
  simp [List.lookup]

/-- Prepending a different key does not affect a lookup. -/
theorem lookup_cons_ne {β : Type} {k k2 : Nat} (v : β) (t : List (Nat × β))
    (h : k ≠ k2) : List.lookup k ((k2, v) :: t) = List.lookup k t := by
  simp [List.lookup, beq_eq_false_iff_ne.mpr h]

/-- Recording a store event leaves every clause unchanged. -/
theorem cl_record (s : SpState) (e : StoreEvent) (i : Nat) :
    (s.record e).cl i = s.cl i := rfl

/-- Caching a positive naming premise leaves every clause unchanged. -/
theorem cl_pushPos (s : SpState) (p c i : Nat) :
    (s.pushPosPremise p c).cl i = s.cl i := rfl

/-- Caching a negative naming premise leaves every clause unchanged. -/
theorem cl_pushNeg (s : SpState) (p c i : Nat) :
    (s.pushNegPremise p c).cl i = s.cl i := rfl

/-- The clause just allocated. -/
theorem cl_alloc_fresh (s : SpState) (c : SplClause) :
    (s.alloc c).2.cl (s.alloc c).1 = c := by
  show (List.lookup s.nextCl ((s.nextCl, c) :: s.heap)).getD _ = c
  rw [lookup_cons_self]
  rfl

/-- Allocation leaves every other clause unchanged. -/
theorem cl_alloc_ne (s : SpState) (c : SplClause) {i : Nat}
    (h : i ≠ s.nextCl) : (s.alloc c).2.cl i = s.cl i := by
  show (List.lookup i ((s.nextCl, c) :: s.heap)).getD _ =
    (List.lookup i s.heap).getD _
  rw [lookup_cons_ne _ _ h]

/-- Unfolding one step of an association-list lookup. -/
theorem lookup_cons {β : Type} (k k2 : Nat) (v : β) (t : List (Nat × β)) :
    List.lookup k ((k2, v) :: t) =
      if k == k2 then some v else List.lookup k t := by
  cases h : k == k2 <;> simp [List.lookup, h]

/-- `setProp` leaves every other clause unchanged. -/
theorem cl_setProp_ne (s : SpState) (j : Nat) (p : BDDNode) {i : Nat}
    (h : i ≠ j) : (s.setProp j p).cl i = s.cl i := by
  show (List.lookup i (s.heap.map _)).getD _ = (List.lookup i s.heap).getD _
  have key : ∀ t : List (Nat × SplClause),
      List.lookup i (t.map (fun e =>
        if e.1 = j then (e.1, { e.2 with prop := p }) else e)) =
      List.lookup i t := by
    intro t
    induction t with
    | nil => rfl
    | cons e rest ih =>
      obtain ⟨k, v⟩ := e
      dsimp only [List.map_cons]
      by_cases hej : k = j
      · rw [if_pos hej, lookup_cons, lookup_cons, ih]
        have hik : (i == k) = false :=
          beq_eq_false_iff_ne.mpr (fun hik => h (hik.trans hej))
        rw [hik]
        rfl
      · rw [if_neg hej, lookup_cons, lookup_cons, ih]
  rw [key]

/-! ## Helper lemmas: `getPropPredName` -/

/-- The full characterisation of one `getPropPredName` call on a
well-formed state and an arity-0 literal: the predicate's split name is
registered (freshly allocated exactly when the predicate had none), the
returned premise is an allocated clause outside the variant index holding
exactly the literal with the complementary atomic propositional part,
recorded in the store; the call only allocates (never touches existing
clauses, the variant index, or recorded events), and well-formedness is
preserved. -/
theorem getPropPredName_spec (s : SpState) (l : Literal)
    (hwf : PropPremWF s) (ha : l.args = []) :
    (getPropPredName s l).state.propPredNames.lookup l.functor =
      some (getPropPredName s l).name ∧
    (s.propPredNames.lookup l.functor = none →
      (getPropPredName s l).name = s.bddNextVar) ∧
    (∀ n, s.propPredNames.lookup l.functor = some n →
      (getPropPredName s l).name = n) ∧
    (getPropPredName s l).premise < (getPropPredName s l).state.nextCl ∧
    (getPropPredName s l).premise ∉ (getPropPredName s l).state.variantIndex ∧
    ((getPropPredName s l).state.cl (getPropPredName s l).premise).lits
      = [l] ∧
    ((getPropPredName s l).state.cl (getPropPredName s l).premise).prop
      = BDD.getAtomic (getPropPredName s l).name l.isNegative ∧
    StoreEvent.nonPropInference (getPropPredName s l).premise ∈
      (getPropPredName s l).state.store ∧
    s.nextCl ≤ (getPropPredName s l).state.nextCl ∧
    (getPropPredName s l).state.variantIndex = s.variantIndex ∧
    (∀ i, i < s.nextCl → (getPropPredName s l).state.cl i = s.cl i) ∧
    (∀ e ∈ s.store, e ∈ (getPropPredName s l).state.store) ∧
    (∀ q n, s.propPredNames.lookup q = some n →
      (getPropPredName s l).state.propPredNames.lookup q = some n) ∧
    PropPremWF (getPropPredName s l).state ∧
    (∀ e ∈ (getPropPredName s l).state.store,
      e ∈ s.store ∨ ∃ c2, e = .nonPropInference c2) := by
  obtain ⟨f, pol, args⟩ := l
  dsimp only at ha
  subst ha
  dsimp only
  obtain ⟨hwfI, hwfP, hwfN⟩ := hwf
  cases pol with
  | true =>
    cases hn : s.propPredNames.lookup f with
    | some n =>
      cases hc : s.propPredPosNamePremises.lookup f with
      | some cid =>
        have heq : getPropPredName s ⟨f, true, []⟩ = ⟨n, cid, true, s⟩ := by
          unfold getPropPredName
          dsimp only
          rw [hn]
          dsimp only
          rw [hc]
          try rfl
        obtain ⟨hlt, hni, n2, hn2, hlits, hprop, hst⟩ :=
          hwfP f cid (lookup_mem hc)
        have hnn : n2 = n := by
          rw [hn] at hn2; exact (Option.some.inj hn2).symm
        subst hnn
        rw [heq]
        refine ⟨hn, ?_, ?_, hlt, hni, hlits, hprop, hst, Nat.le_refl _,
          rfl, fun i _ => rfl, fun e he => he, fun q n' h => h,
          ⟨hwfI, hwfP, hwfN⟩, fun e he => Or.inl he⟩
        · intro h; cases h
        · intro n' h; exact Option.some.inj h
      | none =>
        have heq : getPropPredName s ⟨f, true, []⟩ =
            ⟨n, s.nextCl, false,
              ((s.alloc ⟨[⟨f, true, []⟩], .axm, BDD.getAtomic n false,
                    .inference0 .clauseNaming⟩).2.record
                  (.nonPropInference s.nextCl)).pushPosPremise f s.nextCl⟩ := by
          unfold getPropPredName
          dsimp only
          rw [hn]
          dsimp only
          rw [hc]
          try rfl
        have hfresh := cl_alloc_fresh s
          ⟨[⟨f, true, []⟩], .axm, BDD.getAtomic n false,
            .inference0 .clauseNaming⟩
        rw [heq]
        refine ⟨hn, ?_, ?_, Nat.lt_succ_self _, ?_,
          congrArg SplClause.lits hfresh, congrArg SplClause.prop hfresh,
          List.mem_cons_self _ _, Nat.le_succ _, rfl, ?_,
          fun e he => List.mem_cons_of_mem _ he, fun q n' h => h,
          ⟨?_, ?_, ?_⟩, ?_⟩
        · intro h; cases h
        · intro n' h; exact Option.some.inj h
        · exact fun hm => absurd (hwfI _ hm) (Nat.lt_irrefl _)
        · exact fun i hi => cl_alloc_ne s _ (Nat.ne_of_lt hi)
        · exact fun i hi => Nat.lt_succ_of_lt (hwfI i hi)
        · intro pr cid hm
          rcases List.mem_cons.mp hm with hm | hm
          · have hpr : pr = f := congrArg Prod.fst hm
            have hcid : cid = s.nextCl := congrArg Prod.snd hm
            subst hpr; subst hcid
            refine ⟨Nat.lt_succ_self _,
              fun hv => absurd (hwfI _ hv) (Nat.lt_irrefl _),
              n, hn, congrArg SplClause.lits hfresh,
              congrArg SplClause.prop hfresh, List.mem_cons_self _ _⟩
          · obtain ⟨h1, h2, n2, h3, h4, h5, h6⟩ := hwfP pr cid hm
            refine ⟨Nat.lt_succ_of_lt h1, h2, n2, h3, ?_, ?_,
              List.mem_cons_of_mem _ h6⟩
            · exact (congrArg SplClause.lits (cl_alloc_ne _ _ (Nat.ne_of_lt h1))).trans h4
            · exact (congrArg SplClause.prop (cl_alloc_ne _ _ (Nat.ne_of_lt h1))).trans h5
        · intro pr cid hm
          obtain ⟨h1, h2, n2, h3, h4, h5, h6⟩ := hwfN pr cid hm
          refine ⟨Nat.lt_succ_of_lt h1, h2, n2, h3, ?_, ?_,
            List.mem_cons_of_mem _ h6⟩
          · exact (congrArg SplClause.lits (cl_alloc_ne _ _ (Nat.ne_of_lt h1))).trans h4
          · exact (congrArg SplClause.prop (cl_alloc_ne _ _ (Nat.ne_of_lt h1))).trans h5
        · intro e he
          rcases List.mem_cons.mp he with he | he
          · exact Or.inr ⟨_, he⟩
          · exact Or.inl he
    | none =>
      cases hc : s.propPredPosNamePremises.lookup f with
      | some cid =>
        exfalso
        obtain ⟨-, -, n2, hn2, -⟩ := hwfP f cid (lookup_mem hc)
        rw [hn] at hn2; cases hn2
      | none =>
        have heq : getPropPredName s ⟨f, true, []⟩ =
            ⟨s.bddNextVar, s.nextCl, false,
              (({ s with
                    bddNextVar := s.bddNextVar + 1
                    propPredNames :=
                      (f, s.bddNextVar) :: s.propPredNames }.alloc
                  ⟨[⟨f, true, []⟩], .axm,
                    BDD.getAtomic s.bddNextVar false,
                    .inference0 .clauseNaming⟩).2.record
                  (.nonPropInference s.nextCl)).pushPosPremise f s.nextCl⟩ := by
          unfold getPropPredName
          dsimp only
          rw [hn]
          dsimp only
          rw [hc]
          try rfl
        have hfresh := cl_alloc_fresh
          { s with
            bddNextVar := s.bddNextVar + 1
            propPredNames := (f, s.bddNextVar) :: s.propPredNames }
          ⟨[⟨f, true, []⟩], .axm, BDD.getAtomic s.bddNextVar false,
            .inference0 .clauseNaming⟩
        rw [heq]
        refine ⟨lookup_cons_self _ _ _, fun _ => rfl, ?_,
          Nat.lt_succ_self _, ?_,
          congrArg SplClause.lits hfresh, congrArg SplClause.prop hfresh,
          List.mem_cons_self _ _, Nat.le_succ _, rfl, ?_,
          fun e he => List.mem_cons_of_mem _ he, ?_, ⟨?_, ?_, ?_⟩, ?_⟩
        · intro n' h; cases h
        · exact fun hm => absurd (hwfI _ hm) (Nat.lt_irrefl _)
        · exact fun i hi => cl_alloc_ne _ _ (Nat.ne_of_lt hi)
        · intro q n' h
          by_cases hq : q = f
          · subst hq; rw [hn] at h; cases h
          · exact (lookup_cons_ne _ _ hq).trans h
        · exact fun i hi => Nat.lt_succ_of_lt (hwfI i hi)
        · intro pr cid hm
          rcases List.mem_cons.mp hm with hm | hm
          · have hpr : pr = f := congrArg Prod.fst hm
            have hcid : cid = s.nextCl := congrArg Prod.snd hm
            subst hpr; subst hcid
            refine ⟨Nat.lt_succ_self _,
              fun hv => absurd (hwfI _ hv) (Nat.lt_irrefl _),
              s.bddNextVar, lookup_cons_self _ _ _,
              congrArg SplClause.lits hfresh,
              congrArg SplClause.prop hfresh, List.mem_cons_self _ _⟩
          · obtain ⟨h1, h2, n2, h3, h4, h5, h6⟩ := hwfP pr cid hm
            have hpr : pr ≠ f := by
              intro hpr; subst hpr; rw [hn] at h3; cases h3
            refine ⟨Nat.lt_succ_of_lt h1, h2, n2, ?_, ?_, ?_,
              List.mem_cons_of_mem _ h6⟩
            · exact (lookup_cons_ne _ _ hpr).trans h3
            · exact (congrArg SplClause.lits (cl_alloc_ne _ _ (Nat.ne_of_lt h1))).trans h4
            · exact (congrArg SplClause.prop (cl_alloc_ne _ _ (Nat.ne_of_lt h1))).trans h5
        · intro pr cid hm
          obtain ⟨h1, h2, n2, h3, h4, h5, h6⟩ := hwfN pr cid hm
          have hpr : pr ≠ f := by
            intro hpr; subst hpr; rw [hn] at h3; cases h3
          refine ⟨Nat.lt_succ_of_lt h1, h2, n2, ?_, ?_, ?_,
            List.mem_cons_of_mem _ h6⟩
          · exact (lookup_cons_ne _ _ hpr).trans h3
          · exact (congrArg SplClause.lits (cl_alloc_ne _ _ (Nat.ne_of_lt h1))).trans h4
          · exact (congrArg SplClause.prop (cl_alloc_ne _ _ (Nat.ne_of_lt h1))).trans h5
        · intro e he
          rcases List.mem_cons.mp he with he | he
          · exact Or.inr ⟨_, he⟩
          · exact Or.inl he
  | false =>
    cases hn : s.propPredNames.lookup f with
    | some n =>
      cases hc : s.propPredNegNamePremises.lookup f with
      | some cid =>
        have heq : getPropPredName s ⟨f, false, []⟩ = ⟨n, cid, true, s⟩ := by
          unfold getPropPredName
          dsimp only
          rw [hn]
          dsimp only
          rw [hc]
          try rfl
        obtain ⟨hlt, hni, n2, hn2, hlits, hprop, hst⟩ :=
          hwfN f cid (lookup_mem hc)
        have hnn : n2 = n := by
          rw [hn] at hn2; exact (Option.some.inj hn2).symm
        subst hnn
        rw [heq]
        refine ⟨hn, ?_, ?_, hlt, hni, hlits, hprop, hst, Nat.le_refl _,
          rfl, fun i _ => rfl, fun e he => he, fun q n' h => h,
          ⟨hwfI, hwfP, hwfN⟩, fun e he => Or.inl he⟩
        · intro h; cases h
        · intro n' h; exact Option.some.inj h
      | none =>
        have heq : getPropPredName s ⟨f, false, []⟩ =
            ⟨n, s.nextCl, false,
              ((s.alloc ⟨[⟨f, false, []⟩], .axm, BDD.getAtomic n true,
                    .inference0 .clauseNaming⟩).2.record
                  (.nonPropInference s.nextCl)).pushNegPremise f s.nextCl⟩ := by
          unfold getPropPredName
          dsimp only
          rw [hn]
          dsimp only
          rw [hc]
          try rfl
        have hfresh := cl_alloc_fresh s
          ⟨[⟨f, false, []⟩], .axm, BDD.getAtomic n true,
            .inference0 .clauseNaming⟩
        rw [heq]
        refine ⟨hn, ?_, ?_, Nat.lt_succ_self _, ?_,
          congrArg SplClause.lits hfresh, congrArg SplClause.prop hfresh,
          List.mem_cons_self _ _, Nat.le_succ _, rfl, ?_,
          fun e he => List.mem_cons_of_mem _ he, fun q n' h => h,
          ⟨?_, ?_, ?_⟩, ?_⟩
        · intro h; cases h
        · intro n' h; exact Option.some.inj h
        · exact fun hm => absurd (hwfI _ hm) (Nat.lt_irrefl _)
        · exact fun i hi => cl_alloc_ne s _ (Nat.ne_of_lt hi)
        · exact fun i hi => Nat.lt_succ_of_lt (hwfI i hi)
        · intro pr cid hm
          obtain ⟨h1, h2, n2, h3, h4, h5, h6⟩ := hwfP pr cid hm
          refine ⟨Nat.lt_succ_of_lt h1, h2, n2, h3, ?_, ?_,
            List.mem_cons_of_mem _ h6⟩
          · exact (congrArg SplClause.lits (cl_alloc_ne _ _ (Nat.ne_of_lt h1))).trans h4
          · exact (congrArg SplClause.prop (cl_alloc_ne _ _ (Nat.ne_of_lt h1))).trans h5
        · intro pr cid hm
          rcases List.mem_cons.mp hm with hm | hm
          · have hpr : pr = f := congrArg Prod.fst hm
            have hcid : cid = s.nextCl := congrArg Prod.snd hm
            subst hpr; subst hcid
            refine ⟨Nat.lt_succ_self _,
              fun hv => absurd (hwfI _ hv) (Nat.lt_irrefl _),
              n, hn, congrArg SplClause.lits hfresh,
              congrArg SplClause.prop hfresh, List.mem_cons_self _ _⟩
          · obtain ⟨h1, h2, n2, h3, h4, h5, h6⟩ := hwfN pr cid hm
            refine ⟨Nat.lt_succ_of_lt h1, h2, n2, h3, ?_, ?_,
              List.mem_cons_of_mem _ h6⟩
            · exact (congrArg SplClause.lits (cl_alloc_ne _ _ (Nat.ne_of_lt h1))).trans h4
            · exact (congrArg SplClause.prop (cl_alloc_ne _ _ (Nat.ne_of_lt h1))).trans h5
        · intro e he
          rcases List.mem_cons.mp he with he | he
          · exact Or.inr ⟨_, he⟩
          · exact Or.inl he
    | none =>
      cases hc : s.propPredNegNamePremises.lookup f with
      | some cid =>
        exfalso
        obtain ⟨-, -, n2, hn2, -⟩ := hwfN f cid (lookup_mem hc)
        rw [hn] at hn2; cases hn2
      | none =>
        have heq : getPropPredName s ⟨f, false, []⟩ =
            ⟨s.bddNextVar, s.nextCl, false,
              (({ s with
                    bddNextVar := s.bddNextVar + 1
                    propPredNames :=
                      (f, s.bddNextVar) :: s.propPredNames }.alloc
                  ⟨[⟨f, false, []⟩], .axm,
                    BDD.getAtomic s.bddNextVar true,
                    .inference0 .clauseNaming⟩).2.record
                  (.nonPropInference s.nextCl)).pushNegPremise f s.nextCl⟩ := by
          unfold getPropPredName
          dsimp only
          rw [hn]
          dsimp only
          rw [hc]
          try rfl
        have hfresh := cl_alloc_fresh
          { s with
            bddNextVar := s.bddNextVar + 1
            propPredNames := (f, s.bddNextVar) :: s.propPredNames }
          ⟨[⟨f, false, []⟩], .axm, BDD.getAtomic s.bddNextVar true,
            .inference0 .clauseNaming⟩
        rw [heq]
        refine ⟨lookup_cons_self _ _ _, fun _ => rfl, ?_,
          Nat.lt_succ_self _, ?_,
          congrArg SplClause.lits hfresh, congrArg SplClause.prop hfresh,
          List.mem_cons_self _ _, Nat.le_succ _, rfl, ?_,
          fun e he => List.mem_cons_of_mem _ he, ?_, ⟨?_, ?_, ?_⟩, ?_⟩
        · intro n' h; cases h
        · exact fun hm => absurd (hwfI _ hm) (Nat.lt_irrefl _)
        · exact fun i hi => cl_alloc_ne _ _ (Nat.ne_of_lt hi)
        · intro q n' h
          by_cases hq : q = f
          · subst hq; rw [hn] at h; cases h
          · exact (lookup_cons_ne _ _ hq).trans h
        · exact fun i hi => Nat.lt_succ_of_lt (hwfI i hi)
        · intro pr cid hm
          obtain ⟨h1, h2, n2, h3, h4, h5, h6⟩ := hwfP pr cid hm
          have hpr : pr ≠ f := by
            intro hpr; subst hpr; rw [hn] at h3; cases h3
          refine ⟨Nat.lt_succ_of_lt h1, h2, n2, ?_, ?_, ?_,
            List.mem_cons_of_mem _ h6⟩
          · exact (lookup_cons_ne _ _ hpr).trans h3
          · exact (congrArg SplClause.lits (cl_alloc_ne _ _ (Nat.ne_of_lt h1))).trans h4
          · exact (congrArg SplClause.prop (cl_alloc_ne _ _ (Nat.ne_of_lt h1))).trans h5
        · intro pr cid hm
          rcases List.mem_cons.mp hm with hm | hm
          · have hpr : pr = f := congrArg Prod.fst hm
            have hcid : cid = s.nextCl := congrArg Prod.snd hm
            subst hpr; subst hcid
            refine ⟨Nat.lt_succ_self _,
              fun hv => absurd (hwfI _ hv) (Nat.lt_irrefl _),
              s.bddNextVar, lookup_cons_self _ _ _,
              congrArg SplClause.lits hfresh,
              congrArg SplClause.prop hfresh, List.mem_cons_self _ _⟩
          · obtain ⟨h1, h2, n2, h3, h4, h5, h6⟩ := hwfN pr cid hm
            have hpr : pr ≠ f := by
              intro hpr; subst hpr; rw [hn] at h3; cases h3
            refine ⟨Nat.lt_succ_of_lt h1, h2, n2, ?_, ?_, ?_,
              List.mem_cons_of_mem _ h6⟩
            · exact (lookup_cons_ne _ _ hpr).trans h3
            · exact (congrArg SplClause.lits (cl_alloc_ne _ _ (Nat.ne_of_lt h1))).trans h4
            · exact (congrArg SplClause.prop (cl_alloc_ne _ _ (Nat.ne_of_lt h1))).trans h5
        · intro e he
          rcases List.mem_cons.mp he with he | he
          · exact Or.inr ⟨_, he⟩
          · exact Or.inl he

/-! ## Theorems: per-predicate split names (C10) -/

/-- C10: split names for propositional literals are allocated per
predicate, not per literal — two successive `getPropPredName` calls with
arity-0 literals of the same predicate (either polarities) return the
same BDD variable, allocated on the first call when the predicate had
none; the naming premises are kept separately per polarity, the premise
of a positive literal being `{pr}` with propositional part
`atomic(n, false)` and that of a negative literal `{¬pr}` with
`atomic(n, true)`, two distinct clauses over the one shared variable. -/
theorem getPropPredName_per_predicate_spec (s : SpState) (p : Nat)
    (l1 l2 : Literal) (hwf : PropPremWF s)
    (hf1 : l1.functor = p) (hf2 : l2.functor = p)
    (ha1 : l1.args = []) (ha2 : l2.args = []) :
    (getPropPredName s l1).name =
      (getPropPredName (getPropPredName s l1).state l2).name ∧
    (s.propPredNames.lookup p = none →
      (getPropPredName s l1).name = s.bddNextVar) ∧
    ((getPropPredName (getPropPredName s l1).state l2).state.cl
        (getPropPredName s l1).premise).lits = [l1] ∧
    ((getPropPredName (getPropPredName s l1).state l2).state.cl
        (getPropPredName s l1).premise).prop =
      BDD.getAtomic (getPropPredName s l1).name l1.isNegative ∧
    ((getPropPredName (getPropPredName s l1).state l2).state.cl
        (getPropPredName (getPropPredName s l1).state l2).premise).lits
      = [l2] ∧
    ((getPropPredName (getPropPredName s l1).state l2).state.cl
        (getPropPredName (getPropPredName s l1).state l2).premise).prop =
      BDD.getAtomic (getPropPredName s l1).name l2.isNegative ∧
    (l1.polarity ≠ l2.polarity →
      (getPropPredName s l1).premise ≠
        (getPropPredName (getPropPredName s l1).state l2).premise) := by
  obtain ⟨a1, a2, a3, a4, a5, a6, a7, a8, a9, a10, a11, a12, a13, a14, a15⟩ :=
    getPropPredName_spec s l1 hwf ha1
  obtain ⟨b1, b2, b3, b4, b5, b6, b7, b8, b9, b10, b11, b12, b13, b14, b15⟩ :=
    getPropPredName_spec (getPropPredName s l1).state l2 a14 ha2
  have hname : (getPropPredName (getPropPredName s l1).state l2).name =
      (getPropPredName s l1).name := by
    apply b3
    rw [hf2, ← hf1]
    exact a1
  have hstab := b11 (getPropPredName s l1).premise a4
  refine ⟨hname.symm, ?_, ?_, ?_, b6, ?_, ?_⟩
  · intro h
    exact a2 (by rw [hf1]; exact h)
  · rw [hstab]; exact a6
  · rw [hstab]; exact a7
  · rw [b7, hname]
  · intro hpol heq
    have h1 : ((getPropPredName (getPropPredName s l1).state l2).state.cl
        (getPropPredName (getPropPredName s l1).state l2).premise).lits
        = [l1] := by
      rw [← heq, hstab]; exact a6
    rw [b6] at h1
    have h2 : l2 = l1 := by injection h1
    exact hpol (congrArg Literal.polarity h2.symm)

/-- Witness for C10 at a concrete input: on the empty splitter state, the
positive and then the negative arity-0 literal of predicate 7 receive the
same split name, freshly allocated. -/
theorem getPropPredName_per_predicate_spec_witness :
    PropPremWF ⟨[], 0, 0, [], [], [], [], [], [], ⟨0, 0, 0⟩⟩ ∧
    (getPropPredName ⟨[], 0, 0, [], [], [], [], [], [], ⟨0, 0, 0⟩⟩
        ⟨7, true, []⟩).name =
      (getPropPredName
        (getPropPredName ⟨[], 0, 0, [], [], [], [], [], [], ⟨0, 0, 0⟩⟩
          ⟨7, true, []⟩).state ⟨7, false, []⟩).name := by
  have hwf0 : PropPremWF ⟨[], 0, 0, [], [], [], [], [], [], ⟨0, 0, 0⟩⟩ := by
    refine ⟨?_, ?_, ?_⟩
    · intro i hi; cases hi
    · intro pr cid hm; cases hm
    · intro pr cid hm; cases hm
  exact ⟨hwf0,
    (getPropPredName_per_predicate_spec
      ⟨[], 0, 0, [], [], [], [], [], [], ⟨0, 0, 0⟩⟩ 7
      ⟨7, true, []⟩ ⟨7, false, []⟩ hwf0 rfl rfl rfl rfl).1⟩

/-! ## Theorems: the no-split propositional-unit path (C4) -/

/-- C4: a clause of exactly one arity-0 literal takes the no-split path
(`doSplitting` dispatches to `handleNoSplit`), its literal is routed
through `getPropPredName` (allocating or looking up the split variable),
and the clause is replaced by a 0-length clause whose propositional part
is `atomic(n, isPositive(lit))`, derived by a `SPLITTING` inference from
the original clause and the naming premise, after which that new clause —
not the original — is what is passed to the variant-index insertion. -/
theorem handleNoSplit_propUnit_spec (s : SpState) (cl : Nat)
    (lit : Literal) (hwf : PropPremWF s)
    (hlits : (s.cl cl).lits = [lit]) (harity : lit.args = []) :
    (s.propPredNames.lookup lit.functor = none →
      (getPropPredName s lit).name = s.bddNextVar) ∧
    (∀ n, s.propPredNames.lookup lit.functor = some n →
      (getPropPredName s lit).name = n) ∧
    ((namePropUnit s cl).2.cl (namePropUnit s cl).1).lits = [] ∧
    ((namePropUnit s cl).2.cl (namePropUnit s cl).1).prop =
      BDD.getAtomic (getPropPredName s lit).name lit.isPositive ∧
    ((namePropUnit s cl).2.cl (namePropUnit s cl).1).inf =
      .inference2 .splitting cl (getPropPredName s lit).premise ∧
    ((namePropUnit s cl).2.cl (getPropPredName s lit).premise).lits
      = [lit] ∧
    doSplitting s cl = handleNoSplit s cl ∧
    handleNoSplit s cl =
      noSplitInsert (namePropUnit s cl).2 (namePropUnit s cl).1 := by
  obtain ⟨a1, a2, a3, a4, a5, a6, a7, a8, a9, a10, a11, a12, a13, a14⟩ :=
    getPropPredName_spec s lit hwf harity
  have hgetD : (s.cl cl).lits.getD 0 ⟨0, true, []⟩ = lit := by
    rw [hlits]; rfl
  have heqN : namePropUnit s cl =
      ((getPropPredName s lit).state.nextCl,
        ((getPropPredName s lit).state.alloc
          ⟨[], (s.cl cl).inputType,
            BDD.getAtomic (getPropPredName s lit).name lit.isPositive,
            .inference2 .splitting cl
              (getPropPredName s lit).premise⟩).2.record
          (.nonPropInference (getPropPredName s lit).state.nextCl)) := by
    unfold namePropUnit
    rw [hgetD]
    rfl
  have hlen1 : (s.cl cl).lits.length ≤ 1 := by
    rw [hlits]; exact Nat.le_refl 1
  have hcond : (s.cl cl).lits.length = 1 ∧
      ((s.cl cl).lits.getD 0 ⟨0, true, []⟩).args = [] := by
    refine ⟨by rw [hlits]; rfl, by rw [hgetD]; exact harity⟩
  refine ⟨a2, a3, ?_, ?_, ?_, ?_, ?_, ?_⟩
  · rw [heqN]
    exact congrArg SplClause.lits (cl_alloc_fresh _ _)
  · rw [heqN]
    exact congrArg SplClause.prop (cl_alloc_fresh _ _)
  · rw [heqN]
    exact congrArg SplClause.inf (cl_alloc_fresh _ _)
  · rw [heqN]
    exact (congrArg SplClause.lits
      (cl_alloc_ne _ _ (Nat.ne_of_lt a4))).trans a6
  · unfold doSplitting
    dsimp only
    rw [if_pos hlen1]
  · unfold handleNoSplit
    dsimp only
    rw [if_pos hcond]

/-- Witness for C4 at a concrete input: the unit clause `{p3}` (clause 0
of a one-clause heap) is renamed into an empty clause with propositional
part `atomic(0, true)` and a `SPLITTING` inference, before variant-index
insertion. -/
theorem handleNoSplit_propUnit_spec_witness :
    PropPremWF ⟨[(0, ⟨[⟨3, true, []⟩], .conjecture, .fls, .given⟩)], 1, 0,
      [], [], [], [], [], [], ⟨0, 0, 0⟩⟩ ∧
    ((⟨[(0, ⟨[⟨3, true, []⟩], .conjecture, .fls, .given⟩)], 1, 0,
      [], [], [], [], [], [], ⟨0, 0, 0⟩⟩ : SpState).cl 0).lits
        = [⟨3, true, []⟩] ∧
    ((namePropUnit ⟨[(0, ⟨[⟨3, true, []⟩], .conjecture, .fls, .given⟩)],
        1, 0, [], [], [], [], [], [], ⟨0, 0, 0⟩⟩ 0).2.cl
      (namePropUnit ⟨[(0, ⟨[⟨3, true, []⟩], .conjecture, .fls, .given⟩)],
        1, 0, [], [], [], [], [], [], ⟨0, 0, 0⟩⟩ 0).1).lits = [] ∧
    ((namePropUnit ⟨[(0, ⟨[⟨3, true, []⟩], .conjecture, .fls, .given⟩)],
        1, 0, [], [], [], [], [], [], ⟨0, 0, 0⟩⟩ 0).2.cl
      (namePropUnit ⟨[(0, ⟨[⟨3, true, []⟩], .conjecture, .fls, .given⟩)],
        1, 0, [], [], [], [], [], [], ⟨0, 0, 0⟩⟩ 0).1).prop =
      BDD.getAtomic
        (getPropPredName
          ⟨[(0, ⟨[⟨3, true, []⟩], .conjecture, .fls, .given⟩)], 1, 0,
            [], [], [], [], [], [], ⟨0, 0, 0⟩⟩
          ⟨3, true, []⟩).name (⟨3, true, []⟩ : Literal).isPositive := by
  have hwf0 : PropPremWF ⟨[(0, ⟨[⟨3, true, []⟩], .conjecture, .fls,
      .given⟩)], 1, 0, [], [], [], [], [], [], ⟨0, 0, 0⟩⟩ := by
    refine ⟨?_, ?_, ?_⟩
    · intro i hi; cases hi
    · intro pr cid hm; cases hm
    · intro pr cid hm; cases hm
  have h := handleNoSplit_propUnit_spec
    ⟨[(0, ⟨[⟨3, true, []⟩], .conjecture, .fls, .given⟩)], 1, 0,
      [], [], [], [], [], [], ⟨0, 0, 0⟩⟩ 0 ⟨3, true, []⟩ hwf0 rfl rfl
  exact ⟨hwf0, rfl, h.2.2.1, h.2.2.2.1⟩

/-! ## Theorems: early discard on a ⊤ propositional part (C3) -/

/-- A `phase2Step` either exits early returning exactly the global state
it was given, or continues with the global state unchanged except
possibly for a fresh component allocation and a `nonPropInference`
record. -/
theorem phase2Step_cases (lits : List Literal) (it : InputType)
    (ls : Loop2State) (g : List Nat) :
    phase2Step lits it ls g = .inl ls.s ∨
    (∃ ls2, phase2Step lits it ls g = .inr ls2 ∧
      ls.s.nextCl ≤ ls2.s.nextCl ∧
      (∀ i, i < ls.s.nextCl → ls2.s.cl i = ls.s.cl i) ∧
      (∀ e ∈ ls2.s.store, e ∈ ls.s.store ∨ ∃ c, e = .nonPropInference c)) := by
  unfold phase2Step
  dsimp only
  cases hv : retrieveVariants ls.s
      (g.map (fun i => lits.getD i ⟨0, true, []⟩)) with
  | some comp =>
    dsimp only
    cases hname : ls.s.clauseNames.lookup comp with
    | some compName =>
      dsimp only
      by_cases hm : ls.remaining - 1 = 0 ∧
          ls.newComponentStack.isEmpty = true ∧
          ls.unnamedComponentStack.isEmpty = true
      · rw [if_pos hm]
        exact Or.inr ⟨_, rfl, Nat.le_refl _, fun i _ => rfl,
          fun e he => Or.inl he⟩
      · rw [if_neg hm]
        by_cases hT : BDD.isTrue (BDD.disjunction ls.newMasterProp
            (BDD.getAtomic compName true)) = true
        · rw [if_pos hT]
          exact Or.inl rfl
        · rw [if_neg hT]
          exact Or.inr ⟨_, rfl, Nat.le_refl _, fun i _ => rfl,
            fun e he => Or.inl he⟩
    | none =>
      dsimp only
      exact Or.inr ⟨_, rfl, Nat.le_refl _, fun i _ => rfl,
        fun e he => Or.inl he⟩
  | none =>
    dsimp only
    refine Or.inr ⟨_, rfl, Nat.le_succ _, ?_, ?_⟩
    · exact fun i hi => cl_alloc_ne _ _ (Nat.ne_of_lt hi)
    · intro e he
      rcases List.mem_cons.mp he with he | he
      · exact Or.inr ⟨_, he⟩
      · exact Or.inl he

/-- Reaching the early exit of `phase2` yields a state in which every
clause of the entry state is untouched and the store has grown only by
`nonPropInference` events. -/
theorem phase2_exit (lits : List Literal) (it : InputType) :
    ∀ (gs : List (List Nat)) (ls : Loop2State) (sE : SpState),
      phase2 lits it gs ls = .inl sE →
      ls.s.nextCl ≤ sE.nextCl ∧
      (∀ i, i < ls.s.nextCl → sE.cl i = ls.s.cl i) ∧
      (∀ e ∈ sE.store, e ∈ ls.s.store ∨ ∃ c, e = .nonPropInference c)
  | [], _, _, h => by cases h
  | g :: gs, ls, sE, h => by
    simp only [phase2] at h
    by_cases hp : isPropSingleton lits g = true
    · rw [if_pos hp] at h
      exact phase2_exit lits it gs ls sE h
    · rw [if_neg hp] at h
      rcases phase2Step_cases lits it ls g with hstep | ⟨ls2, hstep, hle, hcl, hst⟩
      · rw [hstep] at h
        have hE : ls.s = sE := Sum.inl.inj h
        subst hE
        exact ⟨Nat.le_refl _, fun i _ => rfl, fun e he => Or.inl he⟩
      · rw [hstep] at h
        obtain ⟨ihle, ihcl, ihst⟩ := phase2_exit lits it gs ls2 sE h
        refine ⟨Nat.le_trans hle ihle, ?_, ?_⟩
        · intro i hi
          exact (ihcl i (Nat.lt_of_lt_of_le hi hle)).trans (hcl i hi)
        · intro e he
          rcases ihst e he with he2 | he2
          · exact hst e he2
          · exact Or.inr he2

/-- Every literal selected by `propLitsOf` has arity 0. -/
theorem propLitsOf_args (lits : List Literal) (groups : List (List Nat)) :
    ∀ l ∈ propLitsOf lits groups, l.args = [] := by
  intro l hl
  unfold propLitsOf at hl
  rcases List.mem_map.mp hl with ⟨g, hg, rfl⟩
  have hps := (List.mem_filter.mp hg).2
  unfold isPropSingleton at hps
  simp only [Bool.and_eq_true] at hps
  simpa using hps.2

/-- Folding the propositional-component step over arity-0 literals
preserves the well-formedness invariant, keeps the variant index and
every already-allocated clause unchanged, and grows the store by
`nonPropInference` events only. -/
theorem propCompStep_foldl :
    ∀ (ll : List Literal) (s : SpState) (mp : BDDNode) (prems : List Nat),
      PropPremWF s → (∀ l ∈ ll, l.args = []) →
      PropPremWF (ll.foldl propCompStep (s, mp, prems)).1 ∧
      s.nextCl ≤ (ll.foldl propCompStep (s, mp, prems)).1.nextCl ∧
      (ll.foldl propCompStep (s, mp, prems)).1.variantIndex =
        s.variantIndex ∧
      (∀ i, i < s.nextCl →
        (ll.foldl propCompStep (s, mp, prems)).1.cl i = s.cl i) ∧
      (∀ e ∈ (ll.foldl propCompStep (s, mp, prems)).1.store,
        e ∈ s.store ∨ ∃ c, e = .nonPropInference c)
  | [], _, _, _, hwf, _ =>
    ⟨hwf, Nat.le_refl _, rfl, fun i _ => rfl, fun e he => Or.inl he⟩
  | l :: ll, s, mp, prems, hwf, hargs => by
    have ha : l.args = [] := hargs l (List.mem_cons_self _ _)
    obtain ⟨a1, a2, a3, a4, a5, a6, a7, a8, a9, a10, a11, a12, a13, a14, a15⟩ :=
      getPropPredName_spec s l hwf ha
    obtain ⟨b1, b2, b3, b4, b5⟩ :=
      propCompStep_foldl ll (getPropPredName s l).state
        (BDD.disjunction mp
          (BDD.getAtomic (getPropPredName s l).name l.isPositive))
        (prems ++ [(getPropPredName s l).premise]) a14
        (fun l2 hl2 => hargs l2 (List.mem_cons_of_mem _ hl2))
    have hfold : (l :: ll).foldl propCompStep (s, mp, prems) =
        ll.foldl propCompStep ((getPropPredName s l).state,
          BDD.disjunction mp
            (BDD.getAtomic (getPropPredName s l).name l.isPositive),
          prems ++ [(getPropPredName s l).premise]) := rfl
    rw [hfold]
    refine ⟨b1, Nat.le_trans a9 b2, b3.trans a10, ?_, ?_⟩
    · intro i hi
      exact (b4 i (Nat.lt_of_lt_of_le hi a9)).trans (a11 i hi)
    · intro e he
      rcases b5 e he with he2 | he2
      · rcases a15 e he2 with he3 | he3
        · exact Or.inl he3
        · exact Or.inr he3
      · exact Or.inr he2

/-- C3: when, on the multi-component path of `doSplitting`, disjoining
the split name of an already-named variant component turns the
accumulated master propositional part into the BDD constant ⊤ (the
`Sum.inl` early exit of the second component loop), the input clause is
discarded: `doSplitting` returns at once with both output component
lists empty, the propositional part of every already-allocated clause is
unchanged, and no `SPLITTING` event is recorded in the inference
store. -/
theorem doSplitting_discard_spec (s : SpState) (cl : Nat) (sExit : SpState)
    (hwf : PropPremWF s)
    (hlen : ¬((s.cl cl).lits.length ≤ 1))
    (hgrp : ¬(components (s.cl cl).lits).length = 1)
    (hexit : phase2 (s.cl cl).lits (s.cl cl).inputType
        (components (s.cl cl).lits)
        ⟨(phase1 (s.cl cl).lits (components (s.cl cl).lits)
            { s with stats := { s.stats with
                splittedClauses := s.stats.splittedClauses + 1
                splittedComponents := s.stats.splittedComponents +
                  (components (s.cl cl).lits).length } }
            (s.cl cl).prop [cl]).1,
          (components (s.cl cl).lits).length -
            ((components (s.cl cl).lits).filter
              (isPropSingleton (s.cl cl).lits)).length,
          (phase1 (s.cl cl).lits (components (s.cl cl).lits)
            { s with stats := { s.stats with
                splittedClauses := s.stats.splittedClauses + 1
                splittedComponents := s.stats.splittedComponents +
                  (components (s.cl cl).lits).length } }
            (s.cl cl).prop [cl]).2.1,
          (phase1 (s.cl cl).lits (components (s.cl cl).lits)
            { s with stats := { s.stats with
                splittedClauses := s.stats.splittedClauses + 1
                splittedComponents := s.stats.splittedComponents +
                  (components (s.cl cl).lits).length } }
            (s.cl cl).prop [cl]).2.2,
          [], [], none⟩ = .inl sExit) :
    doSplitting s cl = (sExit, [], []) ∧
    (∀ i, i < s.nextCl → (sExit.cl i).prop = (s.cl i).prop) ∧
    (∀ m oldP newP prs,
      StoreEvent.splitting m oldP newP prs ∈ sExit.store →
      StoreEvent.splitting m oldP newP prs ∈ s.store) := by
  have hs0 : PropPremWF { s with stats := { s.stats with
      splittedClauses := s.stats.splittedClauses + 1
      splittedComponents := s.stats.splittedComponents +
        (components (s.cl cl).lits).length } } := hwf
  obtain ⟨p1wf, p1le, p1vi, p1cl, p1st⟩ :=
    propCompStep_foldl
      (propLitsOf (s.cl cl).lits (components (s.cl cl).lits))
      { s with stats := { s.stats with
          splittedClauses := s.stats.splittedClauses + 1
          splittedComponents := s.stats.splittedComponents +
            (components (s.cl cl).lits).length } }
      (s.cl cl).prop [cl] hs0 (propLitsOf_args _ _)
  obtain ⟨e_le, e_cl, e_st⟩ := phase2_exit (s.cl cl).lits
    (s.cl cl).inputType (components (s.cl cl).lits) _ sExit hexit
  refine ⟨?_, ?_, ?_⟩
  · unfold doSplitting
    dsimp only
    rw [if_neg hlen, if_neg hgrp, hexit]
  · intro i hi
    exact congrArg SplClause.prop
      ((e_cl i (Nat.lt_of_lt_of_le hi p1le)).trans (p1cl i hi))
  · intro m oldP newP prs hm
    rcases e_st _ hm with h1 | ⟨c2, h2⟩
    · rcases p1st _ h1 with h2 | ⟨c2, h2⟩
      · exact h2
      · cases h2
    · cases h2

/-- Witness for C3 at a concrete input: clause 1 = `{p1(x0), p2(x1)}`
with propositional part `atomic(0, false)` has two variable-disjoint
components; component `{p2(x1)}` is a variant of the indexed clause 0
named by BDD variable 0, so the master part becomes
`atomic(0, false) ∨ atomic(0, true) = ⊤` and the clause is discarded. -/
theorem doSplitting_discard_spec_witness :
    PropPremWF ⟨[(0, ⟨[⟨2, true, [.var 5]⟩], .axm, .fls, .given⟩),
      (1, ⟨[⟨1, true, [.var 0]⟩, ⟨2, true, [.var 1]⟩], .axm,
        BDD.getAtomic 0 false, .given⟩)],
      2, 1, [0], [(0, 0)], [], [], [], [], ⟨0, 0, 0⟩⟩ ∧
    doSplitting ⟨[(0, ⟨[⟨2, true, [.var 5]⟩], .axm, .fls, .given⟩),
      (1, ⟨[⟨1, true, [.var 0]⟩, ⟨2, true, [.var 1]⟩], .axm,
        BDD.getAtomic 0 false, .given⟩)],
      2, 1, [0], [(0, 0)], [], [], [], [], ⟨0, 0, 0⟩⟩ 1 =
      (⟨[(2, ⟨[⟨1, true, [.var 0]⟩], .axm, .tru,
          .inference0 .tautologyIntroduction⟩),
        (0, ⟨[⟨2, true, [.var 5]⟩], .axm, .fls, .given⟩),
        (1, ⟨[⟨1, true, [.var 0]⟩, ⟨2, true, [.var 1]⟩], .axm,
          BDD.getAtomic 0 false, .given⟩)],
        3, 1, [2, 0], [(0, 0)], [], [], [], [.nonPropInference 2],
        ⟨1, 2, 1⟩⟩, [], []) := by
  have hwf : PropPremWF ⟨[(0, ⟨[⟨2, true, [.var 5]⟩], .axm, .fls,
      .given⟩),
      (1, ⟨[⟨1, true, [.var 0]⟩, ⟨2, true, [.var 1]⟩], .axm,
        BDD.getAtomic 0 false, .given⟩)],
      2, 1, [0], [(0, 0)], [], [], [], [], ⟨0, 0, 0⟩⟩ := by
    refine ⟨?_, ?_, ?_⟩
    · intro i hi
      rcases List.mem_singleton.mp hi with rfl
      decide
    · intro pr cid hm; cases hm
    · intro pr cid hm; cases hm
  exact ⟨hwf, (doSplitting_discard_spec _ 1 _ hwf (by decide) (by decide)
    (by decide)).1⟩

/-! ## Theorems: the propositional-component promotion (C2) -/

/-- Membership in the premise-id list, unfolded. -/
theorem premiseIds_mem (s : SpState) (cid : Nat) :
    cid ∈ premiseIds s ↔
      (∃ pr, (pr, cid) ∈ s.propPredPosNamePremises) ∨
      (∃ pr, (pr, cid) ∈ s.propPredNegNamePremises) := by
  unfold premiseIds
  constructor
  · intro h
    rcases List.mem_map.mp h with ⟨⟨pr, c⟩, hm, hc⟩
    dsimp only at hc
    subst hc
    rcases List.mem_append.mp hm with hm | hm
    · exact Or.inl ⟨pr, hm⟩
    · exact Or.inr ⟨pr, hm⟩
  · intro h
    rcases h with ⟨pr, hm⟩ | ⟨pr, hm⟩
    · exact List.mem_map.mpr ⟨(pr, cid), List.mem_append_left _ hm, rfl⟩
    · exact List.mem_map.mpr ⟨(pr, cid), List.mem_append_right _ hm, rfl⟩

/-- A retrieved variant is a member of the variant index. -/
theorem retrieveVariants_mem (s : SpState) (lits : List Literal) (c : Nat)
    (h : retrieveVariants s lits = some c) : c ∈ s.variantIndex :=
  List.mem_of_find?_eq_some h

/-- Allocation preserves the well-formedness invariant. -/
theorem wf_alloc (s : SpState) (c : SplClause) (hwf : PropPremWF s) :
    PropPremWF (s.alloc c).2 := by
  obtain ⟨h1, h2, h3⟩ := hwf
  refine ⟨fun i hi => Nat.lt_succ_of_lt (h1 i hi), ?_, ?_⟩
  · intro pr cid hm
    obtain ⟨a, b, n, c2, d, e, f2⟩ := h2 pr cid hm
    exact ⟨Nat.lt_succ_of_lt a, b, n, c2,
      (congrArg SplClause.lits (cl_alloc_ne _ _ (Nat.ne_of_lt a))).trans d,
      (congrArg SplClause.prop (cl_alloc_ne _ _ (Nat.ne_of_lt a))).trans e,
      f2⟩
  · intro pr cid hm
    obtain ⟨a, b, n, c2, d, e, f2⟩ := h3 pr cid hm
    exact ⟨Nat.lt_succ_of_lt a, b, n, c2,
      (congrArg SplClause.lits (cl_alloc_ne _ _ (Nat.ne_of_lt a))).trans d,
      (congrArg SplClause.prop (cl_alloc_ne _ _ (Nat.ne_of_lt a))).trans e,
      f2⟩

/-- Recording a store event preserves the well-formedness invariant. -/
theorem wf_record (s : SpState) (ev : StoreEvent) (hwf : PropPremWF s) :
    PropPremWF (s.record ev) := by
  obtain ⟨h1, h2, h3⟩ := hwf
  refine ⟨h1, ?_, ?_⟩
  · intro pr cid hm
    obtain ⟨a, b, n, c2, d, e, f2⟩ := h2 pr cid hm
    exact ⟨a, b, n, c2, d, e, List.mem_cons_of_mem _ f2⟩
  · intro pr cid hm
    obtain ⟨a, b, n, c2, d, e, f2⟩ := h3 pr cid hm
    exact ⟨a, b, n, c2, d, e, List.mem_cons_of_mem _ f2⟩

/-- `setProp` on a variant-index member preserves the well-formedness
invariant (naming premises are outside the index). -/
theorem wf_setProp (s : SpState) (t : Nat) (p : BDDNode)
    (ht : t ∈ s.variantIndex) (hwf : PropPremWF s) :
    PropPremWF (s.setProp t p) := by
  obtain ⟨h1, h2, h3⟩ := hwf
  refine ⟨h1, ?_, ?_⟩
  · intro pr cid hm
    obtain ⟨a, b, n, c2, d, e, f2⟩ := h2 pr cid hm
    have hne : cid ≠ t := fun h => b (h ▸ ht)
    exact ⟨a, b, n, c2,
      (congrArg SplClause.lits (cl_setProp_ne s t p hne)).trans d,
      (congrArg SplClause.prop (cl_setProp_ne s t p hne)).trans e, f2⟩
  · intro pr cid hm
    obtain ⟨a, b, n, c2, d, e, f2⟩ := h3 pr cid hm
    have hne : cid ≠ t := fun h => b (h ▸ ht)
    exact ⟨a, b, n, c2,
      (congrArg SplClause.lits (cl_setProp_ne s t p hne)).trans d,
      (congrArg SplClause.prop (cl_setProp_ne s t p hne)).trans e, f2⟩

/-- Allocating a clause and pushing it onto the variant index preserves
the well-formedness invariant. -/
theorem wf_alloc_push (s : SpState) (c : SplClause) (hwf : PropPremWF s) :
    PropPremWF { (s.alloc c).2 with
      variantIndex := s.nextCl :: (s.alloc c).2.variantIndex } := by
  obtain ⟨h1, h2, h3⟩ := hwf
  refine ⟨?_, ?_, ?_⟩
  · intro i hi
    rcases List.mem_cons.mp hi with hi | hi
    · subst hi; exact Nat.lt_succ_self _
    · exact Nat.lt_succ_of_lt (h1 i hi)
  · intro pr cid hm
    obtain ⟨a, b, n, c2, d, e, f2⟩ := h2 pr cid hm
    refine ⟨Nat.lt_succ_of_lt a, ?_, n, c2,
      (congrArg SplClause.lits (cl_alloc_ne _ _ (Nat.ne_of_lt a))).trans d,
      (congrArg SplClause.prop (cl_alloc_ne _ _ (Nat.ne_of_lt a))).trans e,
      f2⟩
    intro hv
    rcases List.mem_cons.mp hv with hv | hv
    · exact Nat.ne_of_lt a hv
    · exact b hv
  · intro pr cid hm
    obtain ⟨a, b, n, c2, d, e, f2⟩ := h3 pr cid hm
    refine ⟨Nat.lt_succ_of_lt a, ?_, n, c2,
      (congrArg SplClause.lits (cl_alloc_ne _ _ (Nat.ne_of_lt a))).trans d,
      (congrArg SplClause.prop (cl_alloc_ne _ _ (Nat.ne_of_lt a))).trans e,
      f2⟩
    intro hv
    rcases List.mem_cons.mp hv with hv | hv
    · exact Nat.ne_of_lt a hv
    · exact b hv

/-- The naming premise returned by `getPropPredName` is cached in the
per-polarity premise maps of the returned state. -/
theorem getPropPredName_premise_mem (s : SpState) (l : Literal) :
    (getPropPredName s l).premise ∈
      premiseIds (getPropPredName s l).state := by
  obtain ⟨f, pol, args⟩ := l
  unfold getPropPredName
  dsimp only
  cases pol with
  | true =>
    cases hn : s.propPredNames.lookup f with
    | some n =>
      dsimp only
      cases hc : s.propPredPosNamePremises.lookup f with
      | some cid =>
        exact List.mem_map.mpr
          ⟨(f, cid), List.mem_append_left _ (lookup_mem hc), rfl⟩
      | none =>
        exact List.mem_map.mpr
          ⟨(f, s.nextCl),
            List.mem_append_left _ (List.mem_cons_self _ _), rfl⟩
    | none =>
      dsimp only
      cases hc : s.propPredPosNamePremises.lookup f with
      | some cid =>
        exact List.mem_map.mpr
          ⟨(f, cid), List.mem_append_left _ (lookup_mem hc), rfl⟩
      | none =>
        exact List.mem_map.mpr
          ⟨(f, s.nextCl),
            List.mem_append_left _ (List.mem_cons_self _ _), rfl⟩
  | false =>
    cases hn : s.propPredNames.lookup f with
    | some n =>
      dsimp only
      cases hc : s.propPredNegNamePremises.lookup f with
      | some cid =>
        exact List.mem_map.mpr
          ⟨(f, cid), List.mem_append_right _ (lookup_mem hc), rfl⟩
      | none =>
        exact List.mem_map.mpr
          ⟨(f, s.nextCl),
            List.mem_append_right _ (List.mem_cons_self _ _), rfl⟩
    | none =>
      dsimp only
      cases hc : s.propPredNegNamePremises.lookup f with
      | some cid =>
        exact List.mem_map.mpr
          ⟨(f, cid), List.mem_append_right _ (lookup_mem hc), rfl⟩
      | none =>
        exact List.mem_map.mpr
          ⟨(f, s.nextCl),
            List.mem_append_right _ (List.mem_cons_self _ _), rfl⟩

/-- A continuing `phase2Step` preserves the loop invariant, only grows
the variant index and leaves the naming-premise maps unchanged. -/
theorem phase2Step_inr_inv (lits : List Literal) (it : InputType)
    (ls : Loop2State) (g : List Nat) (ls2 : Loop2State)
    (h : phase2Step lits it ls g = .inr ls2) (hinv : Loop2Inv ls) :
    Loop2Inv ls2 ∧
    (∀ v ∈ ls.s.variantIndex, v ∈ ls2.s.variantIndex) ∧
    ls2.s.propPredPosNamePremises = ls.s.propPredPosNamePremises ∧
    ls2.s.propPredNegNamePremises = ls.s.propPredNegNamePremises := by
  obtain ⟨hwf, hnew, hunn, hmast⟩ := hinv
  unfold phase2Step at h
  dsimp only at h
  cases hv : retrieveVariants ls.s
      (g.map (fun i => lits.getD i ⟨0, true, []⟩)) with
  | some comp =>
    rw [hv] at h
    dsimp only at h
    have hcv : comp ∈ ls.s.variantIndex := retrieveVariants_mem _ _ _ hv
    cases hname : ls.s.clauseNames.lookup comp with
    | some compName =>
      rw [hname] at h
      dsimp only at h
      by_cases hm : ls.remaining - 1 = 0 ∧
          ls.newComponentStack.isEmpty = true ∧
          ls.unnamedComponentStack.isEmpty = true
      · rw [if_pos hm] at h
        have hE := Sum.inr.inj h
        subst hE
        refine ⟨⟨hwf, hnew, hunn, ?_⟩, fun v hv2 => hv2, rfl, rfl⟩
        intro m hm2
        have : comp = m := Option.some.inj hm2
        subst this
        exact hcv
      · rw [if_neg hm] at h
        by_cases hT : BDD.isTrue (BDD.disjunction ls.newMasterProp
            (BDD.getAtomic compName true)) = true
        · rw [if_pos hT] at h
          cases h
        · rw [if_neg hT] at h
          have hE := Sum.inr.inj h
          subst hE
          exact ⟨⟨hwf, hnew, hunn, hmast⟩, fun v hv2 => hv2, rfl, rfl⟩
    | none =>
      rw [hname] at h
      dsimp only at h
      have hE := Sum.inr.inj h
      subst hE
      refine ⟨⟨hwf, hnew, ?_, hmast⟩, fun v hv2 => hv2, rfl, rfl⟩
      intro c hc
      rcases List.mem_cons.mp hc with hc | hc
      · subst hc; exact hcv
      · exact hunn c hc
  | none =>
    rw [hv] at h
    dsimp only at h
    have hE := Sum.inr.inj h
    subst hE
    refine ⟨⟨?_, ?_, ?_, ?_⟩, ?_, rfl, rfl⟩
    · exact wf_record _ _ (wf_alloc_push
        { ls.s with stats := { ls.s.stats with
            uniqueComponents := ls.s.stats.uniqueComponents + 1 } }
        ⟨(g.map (fun i => lits.getD i ⟨0, true, []⟩)).reverse, it,
          BDD.getTrue, .inference0 .tautologyIntroduction⟩ hwf)
    · intro c hc
      rcases List.mem_cons.mp hc with hc | hc
      · subst hc; exact List.mem_cons_self _ _
      · exact List.mem_cons_of_mem _ (hnew c hc)
    · exact fun c hc => List.mem_cons_of_mem _ (hunn c hc)
    · exact fun m hm2 => List.mem_cons_of_mem _ (hmast m hm2)
    · exact fun v hv2 => List.mem_cons_of_mem _ hv2

/-- `phase2` reaching its normal end preserves the loop invariant, only
grows the variant index and leaves the naming-premise maps unchanged. -/
theorem phase2_inr (lits : List Literal) (it : InputType) :
    ∀ (gs : List (List Nat)) (ls ls2 : Loop2State),
      phase2 lits it gs ls = .inr ls2 → Loop2Inv ls →
      Loop2Inv ls2 ∧
      (∀ v ∈ ls.s.variantIndex, v ∈ ls2.s.variantIndex) ∧
      ls2.s.propPredPosNamePremises = ls.s.propPredPosNamePremises ∧
      ls2.s.propPredNegNamePremises = ls.s.propPredNegNamePremises
  | [], ls, ls2, h, hinv => by
    have hE := Sum.inr.inj h
    subst hE
    exact ⟨hinv, fun v hv => hv, rfl, rfl⟩
  | g :: gs, ls, ls2, h, hinv => by
    simp only [phase2] at h
    by_cases hp : isPropSingleton lits g = true
    · rw [if_pos hp] at h
      exact phase2_inr lits it gs ls ls2 h hinv
    · rw [if_neg hp] at h
      cases hstep : phase2Step lits it ls g with
      | inl sE =>
        rw [hstep] at h
        cases h
      | inr lsm =>
        rw [hstep] at h
        obtain ⟨hinv1, hmono1, hp1, hn1⟩ :=
          phase2Step_inr_inv lits it ls g lsm hstep hinv
        obtain ⟨hinv2, hmono2, hp2, hn2⟩ :=
          phase2_inr lits it gs lsm ls2 h hinv1
        exact ⟨hinv2, fun v hv => hmono2 v (hmono1 v hv),
          hp2.trans hp1, hn2.trans hn1⟩

/-- Every cached naming premise is an already-allocated clause. -/
theorem premiseIds_lt (s : SpState) (hwf : PropPremWF s) :
    ∀ cid ∈ premiseIds s, cid < s.nextCl := by
  intro cid h
  rcases (premiseIds_mem s cid).mp h with ⟨pr, hm⟩ | ⟨pr, hm⟩
  · exact (hwf.2.1 pr cid hm).1
  · exact (hwf.2.2 pr cid hm).1

/-- `insertIntoIndex` on an allocated clause that is not a cached naming
premise preserves the well-formedness invariant; its result is in the
variant index of its state, the index only grows, and the naming-premise
maps are unchanged. -/
theorem insertIntoIndex_spec (s : SpState) (cl : Nat)
    (hwf : PropPremWF s) (hcl : cl < s.nextCl)
    (hnp : cl ∉ premiseIds s) :
    PropPremWF (insertIntoIndex s cl).state ∧
    (insertIntoIndex s cl).result ∈
      (insertIntoIndex s cl).state.variantIndex ∧
    (∀ v ∈ s.variantIndex, v ∈ (insertIntoIndex s cl).state.variantIndex) ∧
    (insertIntoIndex s cl).state.propPredPosNamePremises =
      s.propPredPosNamePremises ∧
    (insertIntoIndex s cl).state.propPredNegNamePremises =
      s.propPredNegNamePremises := by
  unfold insertIntoIndex
  dsimp only
  cases hr : retrieveVariants s (s.cl cl).lits with
  | some comp =>
    dsimp only
    have hcv : comp ∈ s.variantIndex := retrieveVariants_mem _ _ _ hr
    by_cases heq : (s.cl comp).prop =
        BDD.conjunction (s.cl comp).prop (s.cl cl).prop
    · rw [if_pos heq]
      exact ⟨hwf, hcv, fun v hv => hv, rfl, rfl⟩
    · rw [if_neg heq]
      exact ⟨wf_record _ _ (wf_setProp s comp _ hcv hwf), hcv,
        fun v hv => hv, rfl, rfl⟩
  | none =>
    dsimp only
    refine ⟨?_, List.mem_cons_self _ _, fun v hv => List.mem_cons_of_mem _ hv,
      rfl, rfl⟩
    obtain ⟨h1, h2, h3⟩ := hwf
    refine ⟨?_, ?_, ?_⟩
    · intro i hi
      rcases List.mem_cons.mp hi with hi | hi
      · subst hi; exact hcl
      · exact h1 i hi
    · intro pr cid hm
      obtain ⟨a, b, n, c2, d, e, f2⟩ := h2 pr cid hm
      refine ⟨a, ?_, n, c2, d, e, f2⟩
      intro hv
      rcases List.mem_cons.mp hv with hv | hv
      · subst hv
        exact hnp ((premiseIds_mem s cid).mpr (Or.inl ⟨pr, hm⟩))
      · exact b hv
    · intro pr cid hm
      obtain ⟨a, b, n, c2, d, e, f2⟩ := h3 pr cid hm
      refine ⟨a, ?_, n, c2, d, e, f2⟩
      intro hv
      rcases List.mem_cons.mp hv with hv | hv
      · subst hv
        exact hnp ((premiseIds_mem s cid).mpr (Or.inr ⟨pr, hm⟩))
      · exact b hv

/-- The master-selection step preserves the invariant facts needed for
the non-emission argument. -/
theorem pickMaster_spec (ls : Loop2State) (hinv : Loop2Inv ls) :
    PropPremWF (pickMaster ls).2.2.s ∧
    (pickMaster ls).2.1 ∈ (pickMaster ls).2.2.s.variantIndex ∧
    (∀ c ∈ (pickMaster ls).2.2.newComponentStack,
      c ∈ (pickMaster ls).2.2.s.variantIndex) ∧
    (∀ c ∈ (pickMaster ls).2.2.unnamedComponentStack,
      c ∈ (pickMaster ls).2.2.s.variantIndex) ∧
    (pickMaster ls).2.2.s.propPredPosNamePremises =
      ls.s.propPredPosNamePremises ∧
    (pickMaster ls).2.2.s.propPredNegNamePremises =
      ls.s.propPredNegNamePremises := by
  obtain ⟨hwf, hnew, hunn, hmast⟩ := hinv
  unfold pickMaster
  dsimp only
  cases hns : ls.newComponentStack with
  | cons c rest =>
    dsimp only
    rw [hns] at hnew
    exact ⟨hwf, hnew c (List.mem_cons_self _ _),
      fun c2 hc2 => hnew c2 (List.mem_cons_of_mem _ hc2), hunn, rfl, rfl⟩
  | nil =>
    dsimp only
    cases hus : ls.unnamedComponentStack with
    | cons c rest =>
      dsimp only
      rw [hus] at hunn
      refine ⟨hwf, hunn c (List.mem_cons_self _ _), ?_,
        fun c2 hc2 => hunn c2 (List.mem_cons_of_mem _ hc2), rfl, rfl⟩
      intro c2 hc2
      cases hc2
    | nil =>
      dsimp only
      cases hmc : ls.masterComp with
      | some m =>
        dsimp only
        exact ⟨hwf, hmast m hmc, hnew, hunn, rfl, rfl⟩
      | none =>
        dsimp only
        obtain ⟨i1, i2, i3, i4, i5⟩ := insertIntoIndex_spec
          (ls.s.alloc ⟨[], .axm, BDD.getTrue,
            .inference0 .tautologyIntroduction⟩).2
          (ls.s.alloc ⟨[], .axm, BDD.getTrue,
            .inference0 .tautologyIntroduction⟩).1
          (wf_alloc ls.s _ hwf) (Nat.lt_succ_self _)
          (fun h => Nat.lt_irrefl _ (premiseIds_lt ls.s hwf _ h))
        refine ⟨i1, i2, ?_, ?_, i4, i5⟩
        · intro c2 hc2
          cases hc2
        · intro c2 hc2
          cases hc2

/-- The naming loop preserves the well-formedness invariant and leaves
the variant index and the naming-premise maps unchanged, provided every
component it touches is a variant-index member. -/
theorem nameLoop_spec (m : Nat) :
    ∀ (comps : List Nat) (s : SpState) (nmp : BDDNode) (prems : List Nat),
      PropPremWF s → (∀ c ∈ comps, c ∈ s.variantIndex) →
      PropPremWF (nameLoop m comps s nmp prems).1 ∧
      (nameLoop m comps s nmp prems).1.variantIndex = s.variantIndex ∧
      (nameLoop m comps s nmp prems).1.propPredPosNamePremises =
        s.propPredPosNamePremises ∧
      (nameLoop m comps s nmp prems).1.propPredNegNamePremises =
        s.propPredNegNamePremises
  | [], _, _, _, hwf, _ => ⟨hwf, rfl, rfl, rfl⟩
  | comp :: rest, s, nmp, prems, hwf, hc => by
    simp only [nameLoop]
    by_cases h1 : comp = m
    · rw [if_pos h1]
      exact nameLoop_spec m rest s nmp prems hwf
        (fun c hc2 => hc c (List.mem_cons_of_mem _ hc2))
    · rw [if_neg h1]
      split
      · exact nameLoop_spec m rest _ nmp prems hwf
          (fun c hc2 => hc c (List.mem_cons_of_mem _ hc2))
      · split
        · exact nameLoop_spec m rest _ _ _
            (wf_record _ _ (wf_setProp _ comp _
              (hc comp (List.mem_cons_self _ _)) hwf))
            (fun c hc2 => hc c (List.mem_cons_of_mem _ hc2))
        · exact nameLoop_spec m rest _ _ _ hwf
            (fun c hc2 => hc c (List.mem_cons_of_mem _ hc2))

/-- After the final `setProp`/`SPLITTING`-record of `doSplitting`, no
cached naming premise is the master component or a member of either
component stack. -/
theorem setProp_record_no_premise (sN : SpState) (m : Nat) (p : BDDNode)
    (old new2 : BDDNode) (prs : List Nat)
    (hwfN : PropPremWF sN) (hm : m ∈ sN.variantIndex)
    (stack1 stack2 : List Nat)
    (hs1 : ∀ c ∈ stack1, c ∈ sN.variantIndex)
    (hs2 : ∀ c ∈ stack2, c ∈ sN.variantIndex) :
    ∀ cid, cid ∈ premiseIds ((sN.setProp m p).record
        (.splitting m old new2 prs)) →
      cid ∉ m :: stack1 ∧ cid ∉ stack2 ∧ cid ∉ m :: stack2 ∧
        cid ∉ stack1 := by
  intro cid hcid
  have spwf : PropPremWF ((sN.setProp m p).record
      (.splitting m old new2 prs)) :=
    wf_record _ _ (wf_setProp sN m p hm hwfN)
  have hnot : cid ∉ sN.variantIndex := by
    rcases (premiseIds_mem _ cid).mp hcid with ⟨pr, hmem⟩ | ⟨pr, hmem⟩
    · exact (spwf.2.1 pr cid hmem).2.1
    · exact (spwf.2.2 pr cid hmem).2.1
  refine ⟨?_, ?_, ?_, ?_⟩
  · intro hc
    rcases List.mem_cons.mp hc with hc | hc
    · subst hc; exact hnot hm
    · exact hnot (hs1 cid hc)
  · exact fun hc => hnot (hs2 cid hc)
  · intro hc
    rcases List.mem_cons.mp hc with hc | hc
    · subst hc; exact hnot hm
    · exact hnot (hs2 cid hc)
  · exact fun hc => hnot (hs1 cid hc)

/-- On the multi-component path, no cached naming premise of the final
state is emitted among the new or the modified components of
`doSplitting`. -/
theorem doSplitting_no_premise_emission (s : SpState) (cl : Nat)
    (hwf : PropPremWF s)
    (hlen : ¬((s.cl cl).lits.length ≤ 1))
    (hgrp : ¬(components (s.cl cl).lits).length = 1) :
    ∀ cid, cid ∈ premiseIds (doSplitting s cl).1 →
      cid ∉ (doSplitting s cl).2.1 ∧ cid ∉ (doSplitting s cl).2.2 := by
  have hs0 : PropPremWF { s with stats := { s.stats with
      splittedClauses := s.stats.splittedClauses + 1
      splittedComponents := s.stats.splittedComponents +
        (components (s.cl cl).lits).length } } := hwf
  obtain ⟨p1wf, p1le, p1vi, p1cl, p1st⟩ :=
    propCompStep_foldl
      (propLitsOf (s.cl cl).lits (components (s.cl cl).lits))
      { s with stats := { s.stats with
          splittedClauses := s.stats.splittedClauses + 1
          splittedComponents := s.stats.splittedComponents +
            (components (s.cl cl).lits).length } }
      (s.cl cl).prop [cl] hs0 (propLitsOf_args _ _)
  unfold doSplitting
  dsimp only
  rw [if_neg hlen, if_neg hgrp]
  cases hph : phase2 (s.cl cl).lits (s.cl cl).inputType
      (components (s.cl cl).lits)
      ⟨(phase1 (s.cl cl).lits (components (s.cl cl).lits)
          { s with stats := { s.stats with
              splittedClauses := s.stats.splittedClauses + 1
              splittedComponents := s.stats.splittedComponents +
                (components (s.cl cl).lits).length } }
          (s.cl cl).prop [cl]).1,
        (components (s.cl cl).lits).length -
          ((components (s.cl cl).lits).filter
            (isPropSingleton (s.cl cl).lits)).length,
        (phase1 (s.cl cl).lits (components (s.cl cl).lits)
          { s with stats := { s.stats with
              splittedClauses := s.stats.splittedClauses + 1
              splittedComponents := s.stats.splittedComponents +
                (components (s.cl cl).lits).length } }
          (s.cl cl).prop [cl]).2.1,
        (phase1 (s.cl cl).lits (components (s.cl cl).lits)
          { s with stats := { s.stats with
              splittedClauses := s.stats.splittedClauses + 1
              splittedComponents := s.stats.splittedComponents +
                (components (s.cl cl).lits).length } }
          (s.cl cl).prop [cl]).2.2,
        [], [], none⟩ with
  | inl sExit =>
    dsimp only
    exact fun cid _ => ⟨List.not_mem_nil cid, List.not_mem_nil cid⟩
  | inr ls =>
    dsimp only
    have hInit : Loop2Inv
        ⟨(phase1 (s.cl cl).lits (components (s.cl cl).lits)
            { s with stats := { s.stats with
                splittedClauses := s.stats.splittedClauses + 1
                splittedComponents := s.stats.splittedComponents +
                  (components (s.cl cl).lits).length } }
            (s.cl cl).prop [cl]).1,
          (components (s.cl cl).lits).length -
            ((components (s.cl cl).lits).filter
              (isPropSingleton (s.cl cl).lits)).length,
          (phase1 (s.cl cl).lits (components (s.cl cl).lits)
            { s with stats := { s.stats with
                splittedClauses := s.stats.splittedClauses + 1
                splittedComponents := s.stats.splittedComponents +
                  (components (s.cl cl).lits).length } }
            (s.cl cl).prop [cl]).2.1,
          (phase1 (s.cl cl).lits (components (s.cl cl).lits)
            { s with stats := { s.stats with
                splittedClauses := s.stats.splittedClauses + 1
                splittedComponents := s.stats.splittedComponents +
                  (components (s.cl cl).lits).length } }
            (s.cl cl).prop [cl]).2.2,
          [], [], none⟩ := by
      refine ⟨p1wf, ?_, ?_, ?_⟩
      · exact fun c hc => absurd hc (List.not_mem_nil c)
      · exact fun c hc => absurd hc (List.not_mem_nil c)
      · exact fun m hm => Option.noConfusion hm
    obtain ⟨hinvL, hmono2, hpos2, hneg2⟩ :=
      phase2_inr (s.cl cl).lits (s.cl cl).inputType
        (components (s.cl cl).lits) _ ls hph hInit
    obtain ⟨pmwf, pmmem, pmnew, pmunn, pmpos, pmneg⟩ :=
      pickMaster_spec ls hinvL
    have hcomps : ∀ c ∈ (pickMaster ls).2.2.newComponentStack ++
        (pickMaster ls).2.2.unnamedComponentStack,
        c ∈ (pickMaster ls).2.2.s.variantIndex := by
      intro c hc
      rcases List.mem_append.mp hc with hc | hc
      · exact pmnew c hc
      · exact pmunn c hc
    obtain ⟨nlwf, nlvi, nlpos, nlneg⟩ :=
      nameLoop_spec (pickMaster ls).2.1
        ((pickMaster ls).2.2.newComponentStack ++
          (pickMaster ls).2.2.unnamedComponentStack)
        (pickMaster ls).2.2.s (pickMaster ls).2.2.newMasterProp
        (pickMaster ls).2.2.masterPremises pmwf hcomps
    have hmVI : (pickMaster ls).2.1 ∈
        (nameLoop (pickMaster ls).2.1
          ((pickMaster ls).2.2.newComponentStack ++
            (pickMaster ls).2.2.unnamedComponentStack)
          (pickMaster ls).2.2.s (pickMaster ls).2.2.newMasterProp
          (pickMaster ls).2.2.masterPremises).1.variantIndex := by
      rw [nlvi]; exact pmmem
    have hnew2 : ∀ c ∈ (pickMaster ls).2.2.newComponentStack,
        c ∈ (nameLoop (pickMaster ls).2.1
          ((pickMaster ls).2.2.newComponentStack ++
            (pickMaster ls).2.2.unnamedComponentStack)
          (pickMaster ls).2.2.s (pickMaster ls).2.2.newMasterProp
          (pickMaster ls).2.2.masterPremises).1.variantIndex := by
      intro c hc; rw [nlvi]; exact pmnew c hc
    have hunn2 : ∀ c ∈ (pickMaster ls).2.2.unnamedComponentStack,
        c ∈ (nameLoop (pickMaster ls).2.1
          ((pickMaster ls).2.2.newComponentStack ++
            (pickMaster ls).2.2.unnamedComponentStack)
          (pickMaster ls).2.2.s (pickMaster ls).2.2.newMasterProp
          (pickMaster ls).2.2.masterPremises).1.variantIndex := by
      intro c hc; rw [nlvi]; exact pmunn c hc
    by_cases hpm : (pickMaster ls).1 = true
    · rw [if_pos hpm]
      intro cid hcid
      have h := setProp_record_no_premise _ _ _ _ _ _ nlwf hmVI _ _
        hnew2 hunn2 cid hcid
      exact ⟨h.1, h.2.1⟩
    · rw [if_neg hpm]
      by_cases hop : ((nameLoop (pickMaster ls).2.1
            ((pickMaster ls).2.2.newComponentStack ++
              (pickMaster ls).2.2.unnamedComponentStack)
            (pickMaster ls).2.2.s (pickMaster ls).2.2.newMasterProp
            (pickMaster ls).2.2.masterPremises).1.cl
          (pickMaster ls).2.1).prop ≠
          BDD.conjunction
            ((nameLoop (pickMaster ls).2.1
              ((pickMaster ls).2.2.newComponentStack ++
                (pickMaster ls).2.2.unnamedComponentStack)
              (pickMaster ls).2.2.s (pickMaster ls).2.2.newMasterProp
              (pickMaster ls).2.2.masterPremises).1.cl
            (pickMaster ls).2.1).prop
            (nameLoop (pickMaster ls).2.1
              ((pickMaster ls).2.2.newComponentStack ++
                (pickMaster ls).2.2.unnamedComponentStack)
              (pickMaster ls).2.2.s (pickMaster ls).2.2.newMasterProp
              (pickMaster ls).2.2.masterPremises).2.1
      · rw [if_pos hop]
        intro cid hcid
        have h := setProp_record_no_premise _ _ _ _ _ _ nlwf hmVI _ _
          hnew2 hunn2 cid hcid
        exact ⟨h.2.2.2, h.2.2.1⟩
      · rw [if_neg hop]
        intro cid hcid
        have h := setProp_record_no_premise _ _ _ _ _ _ nlwf hmVI _ _
          hnew2 hunn2 cid hcid
        exact ⟨h.2.2.2, h.2.1⟩

/-- C2: on the multi-component path of `doSplitting` (clause of length
≥ 2 with ≥ 2 variable-disjoint components), every singleton component
whose arity-0 literal is processed by the propositional phase obtains a
BDD variable for the literal (freshly allocated as the next BDD variable
on first use of its predicate, and registered under the predicate), the
accumulated master propositional part becomes the disjunction of its
previous value with `atomic(name, isPositive(lit))`, and a one-literal
naming premise clause `{lit}` with propositional part
`atomic(name, ¬isPositive(lit))` is recorded in the inference store,
cached in the premise maps and appended to the master premises — but no
cached naming premise is ever emitted among the new or the modified
components of the run. -/
theorem doSplitting_prop_component_spec
    (s2 : SpState) (lit : Literal) (mp : BDDNode) (prems : List Nat)
    (hwf2 : PropPremWF s2) (ha : lit.args = [])
    (s : SpState) (cl : Nat) (hwf : PropPremWF s)
    (hlen : ¬((s.cl cl).lits.length ≤ 1))
    (hgrp : ¬(components (s.cl cl).lits).length = 1) :
    propCompStep (s2, mp, prems) lit =
      ((getPropPredName s2 lit).state,
        BDD.disjunction mp
          (BDD.getAtomic (getPropPredName s2 lit).name lit.isPositive),
        prems ++ [(getPropPredName s2 lit).premise]) ∧
    (s2.propPredNames.lookup lit.functor = none →
      (getPropPredName s2 lit).name = s2.bddNextVar) ∧
    (getPropPredName s2 lit).state.propPredNames.lookup lit.functor =
      some (getPropPredName s2 lit).name ∧
    ((getPropPredName s2 lit).state.cl
      (getPropPredName s2 lit).premise).lits = [lit] ∧
    ((getPropPredName s2 lit).state.cl
      (getPropPredName s2 lit).premise).prop =
      BDD.getAtomic (getPropPredName s2 lit).name lit.isNegative ∧
    StoreEvent.nonPropInference (getPropPredName s2 lit).premise ∈
      (getPropPredName s2 lit).state.store ∧
    (getPropPredName s2 lit).premise ∈
      premiseIds (getPropPredName s2 lit).state ∧
    (∀ cid, cid ∈ premiseIds (doSplitting s cl).1 →
      cid ∉ (doSplitting s cl).2.1 ∧ cid ∉ (doSplitting s cl).2.2) := by
  obtain ⟨a1, a2, a3, a4, a5, a6, a7, a8, a9, a10, a11, a12, a13, a14, a15⟩ :=
    getPropPredName_spec s2 lit hwf2 ha
  exact ⟨rfl, a2, a1, a6, a7, a8, getPropPredName_premise_mem s2 lit,
    doSplitting_no_premise_emission s cl hwf hlen hgrp⟩

/-- Witness for C2 at a concrete input: on the empty splitter state, the
arity-0 literal `p5` receives the fresh BDD variable 0 and its naming
premise is the one-literal clause `{p5}`; on the two-component clause 1
of the C3 scenario state no cached naming premise is emitted. -/
theorem doSplitting_prop_component_spec_witness :
    PropPremWF ⟨[], 0, 0, [], [], [], [], [], [], ⟨0, 0, 0⟩⟩ ∧
    ((⟨[], 0, 0, [], [], [], [], [], [], ⟨0, 0, 0⟩⟩ :
        SpState).propPredNames.lookup 5 = none →
      (getPropPredName ⟨[], 0, 0, [], [], [], [], [], [], ⟨0, 0, 0⟩⟩
        ⟨5, true, []⟩).name =
        (⟨[], 0, 0, [], [], [], [], [], [], ⟨0, 0, 0⟩⟩ :
          SpState).bddNextVar) ∧
    ((getPropPredName ⟨[], 0, 0, [], [], [], [], [], [], ⟨0, 0, 0⟩⟩
        ⟨5, true, []⟩).state.cl
      (getPropPredName ⟨[], 0, 0, [], [], [], [], [], [], ⟨0, 0, 0⟩⟩
        ⟨5, true, []⟩).premise).lits = [⟨5, true, []⟩] ∧
    (∀ cid, cid ∈ premiseIds
        (doSplitting ⟨[(0, ⟨[⟨2, true, [.var 5]⟩], .axm, .fls, .given⟩),
          (1, ⟨[⟨1, true, [.var 0]⟩, ⟨2, true, [.var 1]⟩], .axm,
            BDD.getAtomic 0 false, .given⟩)],
          2, 1, [0], [(0, 0)], [], [], [], [], ⟨0, 0, 0⟩⟩ 1).1 →
      cid ∉ (doSplitting ⟨[(0, ⟨[⟨2, true, [.var 5]⟩], .axm, .fls,
          .given⟩),
          (1, ⟨[⟨1, true, [.var 0]⟩, ⟨2, true, [.var 1]⟩], .axm,
            BDD.getAtomic 0 false, .given⟩)],
          2, 1, [0], [(0, 0)], [], [], [], [], ⟨0, 0, 0⟩⟩ 1).2.1 ∧
      cid ∉ (doSplitting ⟨[(0, ⟨[⟨2, true, [.var 5]⟩], .axm, .fls,
          .given⟩),
          (1, ⟨[⟨1, true, [.var 0]⟩, ⟨2, true, [.var 1]⟩], .axm,
            BDD.getAtomic 0 false, .given⟩)],
          2, 1, [0], [(0, 0)], [], [], [], [], ⟨0, 0, 0⟩⟩ 1).2.2) := by
  have hwfE : PropPremWF ⟨[], 0, 0, [], [], [], [], [], [], ⟨0, 0, 0⟩⟩ := by
    refine ⟨?_, ?_, ?_⟩
    · intro i hi; cases hi
    · intro pr cid hm; cases hm
    · intro pr cid hm; cases hm
  have hwfW : PropPremWF ⟨[(0, ⟨[⟨2, true, [.var 5]⟩], .axm, .fls,
      .given⟩),
      (1, ⟨[⟨1, true, [.var 0]⟩, ⟨2, true, [.var 1]⟩], .axm,
        BDD.getAtomic 0 false, .given⟩)],
      2, 1, [0], [(0, 0)], [], [], [], [], ⟨0, 0, 0⟩⟩ := by
    refine ⟨?_, ?_, ?_⟩
    · intro i hi
      rcases List.mem_singleton.mp hi with rfl
      decide
    · intro pr cid hm; cases hm
    · intro pr cid hm; cases hm
  have h := doSplitting_prop_component_spec
    ⟨[], 0, 0, [], [], [], [], [], [], ⟨0, 0, 0⟩⟩ ⟨5, true, []⟩ .fls []
    hwfE rfl
    ⟨[(0, ⟨[⟨2, true, [.var 5]⟩], .axm, .fls, .given⟩),
      (1, ⟨[⟨1, true, [.var 0]⟩, ⟨2, true, [.var 1]⟩], .axm,
        BDD.getAtomic 0 false, .given⟩)],
      2, 1, [0], [(0, 0)], [], [], [], [], ⟨0, 0, 0⟩⟩ 1 hwfW
    (by decide) (by decide)
  exact ⟨hwfE, h.2.1, h.2.2.2.1, h.2.2.2.2.2.2.2⟩

end Vampire
